import Mathlib

/-!
# Essentia: high-level music extractor (SVM) and the `Mean` algorithm

A shallow embedding of

* `src/examples/streaming_extractor_music_svm.cpp` (`usage`, `process_single_file`, `main`), and
* `src/algorithms/stats/mean.cpp` (`Mean::compute`).

Conventions of the embedding.

* A `std::string` is the list of its `char`s (`Str`); `s.substr(pos)` is `List.drop pos`
  guarded by the range check of the standard library.
* A C++ function that may throw returns `Except`; the two exception classes that occur are kept
  apart (`EssentiaException`, which `main` catches, and `std::out_of_range`, which it does not).
* The `Pool` class, `mean`, `mergeValues`, `outputToFile`, the factory and the version constants
  are not part of the two source files. The `Pool` operations and `mean` are modelled from the
  specification; the remaining collaborators are parameters (`Collaborators`, `Versions`).
* `Real` (a C++ `float`) is idealised as a rational number.
-/

namespace Essentia

/-! ## Strings and exceptions -/

/-- A `std::string`: the list of its characters. -/
abbrev Str := List Char

/-- The exceptions of class `EssentiaException` that the model distinguishes. -/
inductive EssentiaException where
  /-- `Pool::value` on a key that is absent. -/
  | keyNotFound (key : Str)
  /-- `Pool::value<T>` on a key whose stored value is not a `T`. -/
  | typeMismatch (key : Str)
  /-- `mean` of an empty array. -/
  | emptyArray
  /-- An error raised by a collaborator outside the two source files
  (loader, classifier, serializer, factory, `init`, `shutdown`). -/
  | other (what : Str)
  deriving DecidableEq, Repr

/-- Everything that can be thrown in the modelled code. -/
inductive Exception where
  /-- An `EssentiaException`. -/
  | essentia (e : EssentiaException)
  /-- The `std::out_of_range` of `std::string::substr`. -/
  | out_of_range
  deriving DecidableEq, Repr

/-- An `EssentiaException` seen as one of the exceptions that can be thrown. -/
def liftE {α : Type} : Except EssentiaException α → Except Exception α
  | Except.ok a => Except.ok a
  | Except.error e => Except.error (Exception.essentia e)

/-- The call `s.substr(pos)`: the characters from `pos` on; throws when `pos > s.size()`. -/
def substr (s : Str) (pos : Nat) : Except Exception Str :=
  if pos ≤ s.length then Except.ok (s.drop pos) else Except.error Exception.out_of_range

/-! ## The descriptor pool -/

/-- A value stored in a pool. -/
inductive Value where
  | real (x : Rat)
  | vectorReal (xs : List Rat)
  | string (s : Str)
  | vectorString (ss : List Str)
  deriving DecidableEq, Repr

instance : Inhabited Value := ⟨Value.string []⟩

/-- A stored value is of string type. -/
def Value.isString : Value → Bool
  | Value.string _ => true
  | _ => false

/-- Modelled from the spec: the class `Pool` is missing from the sources; the specification
describes it as a mapping from descriptor keys to typed values whose enumeration follows insertion
order. It is embedded as the association list of its entries, oldest first. -/
abbrev Pool := List (Str × Value)

namespace Pool

/-- The keys of a pool in enumeration order. -/
def keys (p : Pool) : List Str := p.map Prod.fst

/-- A pool is well formed when its keys are unique. -/
def WF (p : Pool) : Prop := p.keys.Nodup

instance (p : Pool) : Decidable p.WF := by unfold WF; infer_instance

/-- The value stored under `k`, if any. -/
def lookup : Pool → Str → Option Value
  | [], _ => none
  | (k', v) :: rest, k => if k' = k then some v else lookup rest k

/-- Modelled from the spec: `Pool::set` is missing from the sources; "inserts or overwrites the
value at `key`", with no constraint on the type of the value changing across an overwrite. An
overwritten key keeps its place in the enumeration, a new key goes last. -/
def set : Pool → Str → Value → Pool
  | [], k, v => [(k, v)]
  | (k', v') :: rest, k, v => if k' = k then (k, v) :: rest else (k', v') :: set rest k v

/-- Modelled from the spec: `Pool::remove` is missing from the sources; "deletes a single key",
here without effect when the key is absent. -/
def remove : Pool → Str → Pool
  | [], _ => []
  | (k', v') :: rest, k => if k' = k then remove rest k else (k', v') :: remove rest k

/-- The first dot-delimited segment of a key: its namespace. -/
def firstSegment (k : Str) : Str := k.takeWhile (fun c => decide (c ≠ '.'))

/-- Modelled from the spec: `Pool::removeNamespace` is missing from the sources; "deletes all keys
whose first dot-segment equals `prefix`". -/
def removeNamespace (p : Pool) (ns : Str) : Pool :=
  p.filter (fun e => decide (firstSegment e.1 ≠ ns))

/-- A key lies under the namespace `ns` when it continues `ns` after a dot. -/
def under (ns : Str) (k : Str) : Bool := (ns ++ ['.']).isPrefixOf k

/-- Modelled from the spec: `Pool::descriptorNames` is missing from the sources; "all keys under
`prefix`, insertion order". -/
def descriptorNames (p : Pool) (ns : Str) : List Str := p.keys.filter (under ns)

/-- Modelled from the spec: `Pool::value<string>` is missing from the sources; "fails with
`KeyNotFoundError` if absent; fails with `TypeMismatchError` if the stored type does not match the
requested type". -/
def valueString (p : Pool) (k : Str) : Except EssentiaException Str :=
  match p.lookup k with
  | none => Except.error (EssentiaException.keyNotFound k)
  | some (Value.string s) => Except.ok s
  | some _ => Except.error (EssentiaException.typeMismatch k)

/-- The key `k` is present and holds a string: `value<string>(k)` succeeds. -/
def holdsString (p : Pool) (k : Str) : Bool :=
  match p.lookup k with
  | some (Value.string _) => true
  | _ => false

/-- Modelled from the spec: `Pool::value<vector<string> >` is missing from the sources; same
contract as `valueString` at the type of string sequences. -/
def valueVectorString (p : Pool) (k : Str) : Except EssentiaException (List Str) :=
  match p.lookup k with
  | none => Except.error (EssentiaException.keyNotFound k)
  | some (Value.vectorString ss) => Except.ok ss
  | some _ => Except.error (EssentiaException.typeMismatch k)

end Pool

/-! ## `process_single_file` -/

/-- The version constants `essentia::version`, `essentia::version_git_sha`,
`MUSIC_EXTRACTOR_VERSION`, `gaia2::version` and `gaia2::version_git_sha`, declared in headers that
are not part of the sources. -/
structure Versions where
  essentia_version : Str
  essentia_version_git_sha : Str
  MUSIC_EXTRACTOR_VERSION : Str
  gaia2_version : Str
  gaia2_version_git_sha : Str

/-- The namespace whose keys the rewrite loop relocates. -/
def metadataVersion : Str := "metadata.version".toList

/-- The text `"metadata.version."`: the 17 characters that `substr(17)` cuts off. -/
def mvDot : Str := "metadata.version.".toList

/-- The text `"metadata.version.lowlevel."` that the rewrite loop puts in front of the suffix. -/
def mvLow : Str := "metadata.version.lowlevel.".toList

/-- The name `newk` computed in the rewrite loop:
`"metadata.version.lowlevel." + k.substr(17)`. -/
def newKey (k : Str) : Except Exception Str := do
  let suffix ← substr k 17
  pure ("metadata.version.lowlevel.".toList ++ suffix)

/-- The new name of the key `k` as a total function: what `newKey` returns when `substr` is in
range. Used to state properties of the loop. -/
def relocated (k : Str) : Str := mvLow ++ k.drop 17

/-- One iteration of the rewrite loop (lines 71-74) for the key `k`. -/
def rewriteKey (pool : Pool) (k : Str) : Except Exception Pool := do
  let newk ← newKey k
  let v ← liftE (pool.valueString k)
  pure ((pool.set newk (Value.string v)).remove k)

/-- The rewrite loop (lines 70-75) over the key list `keys`. -/
def rewriteLoop (keys : List Str) (pool : Pool) : Except Exception Pool :=
  keys.foldlM rewriteKey pool

/-- Lines 69-75: enumerate the keys under `metadata.version`, then relocate each of them. -/
def versionRewriteLoop (pool : Pool) : Except Exception Pool :=
  rewriteLoop (pool.descriptorNames metadataVersion) pool

/-- Lines 77-81: the five `metadata.version.highlevel.*` keys. -/
def setHighlevelVersions (vs : Versions) (pool : Pool) : Pool :=
  ((((pool.set "metadata.version.highlevel.essentia".toList (Value.string vs.essentia_version)).set
    "metadata.version.highlevel.essentia_git_sha".toList
      (Value.string vs.essentia_version_git_sha)).set
    "metadata.version.highlevel.extractor".toList (Value.string vs.MUSIC_EXTRACTOR_VERSION)).set
    "metadata.version.highlevel.gaia".toList (Value.string vs.gaia2_version)).set
    "metadata.version.highlevel.gaia_git_sha".toList (Value.string vs.gaia2_version_git_sha)

/-- Lines 65-67: the three `removeNamespace` calls. -/
def cleanStep (pool : Pool) : Pool :=
  ((pool.removeNamespace "lowlevel".toList).removeNamespace "rhythm".toList).removeNamespace
    "tonal".toList

/-- Lines 69-81: the rewrite loop followed by the five `set` calls. -/
def versionRewriteStep (vs : Versions) (pool : Pool) : Except Exception Pool := do
  let pool ← versionRewriteLoop pool
  pure (setHighlevelVersions vs pool)

/-- An algorithm whose input and output port are bound to the same pool (lines 61-62): its
`compute` maps the pool to the annotated pool, or throws. -/
abbrev Algorithm := Pool → Except EssentiaException Pool

/-- The functions that `process_single_file` and `main` call and that are defined outside the two
source files, as parameters. The type `σ` is the state of the world they act on (the files). -/
structure Collaborators (σ : Type) where
  /-- The algorithm `YamlInput` created and run in lines 53-58, with `filename` and `format`. -/
  yamlInput : σ → Str → Str → Except EssentiaException Pool
  /-- The call `mergeValues(pool, options)` of line 83; gives the merged pool. -/
  mergeValues : Pool → Pool → Except EssentiaException Pool
  /-- The call `outputToFile(pool, outputFilename, options)` of line 84. -/
  outputToFile : σ → Pool → Str → Pool → σ × Except EssentiaException Unit
  /-- The call `essentia::init()`. -/
  init : σ → Except EssentiaException Unit
  /-- The call `setExtractorDefaultOptions(options)` on the empty pool. -/
  setExtractorDefaultOptions : Pool → Except EssentiaException Pool
  /-- The call `setExtractorOptions(profileFilename, options)`. -/
  setExtractorOptions : σ → Str → Pool → Except EssentiaException Pool
  /-- The call `AlgorithmFactory::create("MusicExtractorSVM", "svms", svmModels)`. -/
  createMusicExtractorSVM : List Str → Except EssentiaException Algorithm
  /-- The calls `delete extractor; essentia::shutdown();`. -/
  shutdown : σ → Except EssentiaException Unit

/-- Lines 51-83 of `process_single_file`: load, classify, clean, rewrite the version keys, set the
new version keys, merge the options. The result is the pool handed to `outputToFile`. -/
def preparePool {σ : Type} (c : Collaborators σ) (vs : Versions) (extractor : Algorithm)
    (descriptorsFilename format : Str) (options : Pool) (w : σ) : Except Exception Pool := do
  let pool ← liftE (c.yamlInput w descriptorsFilename format)
  let pool ← liftE (extractor pool)
  let pool := cleanStep pool
  let pool ← versionRewriteLoop pool
  let pool := setHighlevelVersions vs pool
  liftE (c.mergeValues pool options)

/-- The function `process_single_file`: the new state of the world, and the normal return
(`return 0`) or the exception that leaves the function. -/
def process_single_file {σ : Type} (c : Collaborators σ) (vs : Versions) (extractor : Algorithm)
    (descriptorsFilename outputFilename format : Str) (options : Pool) (w : σ) :
    σ × Except Exception Unit :=
  match preparePool c vs extractor descriptorsFilename format options w with
  | Except.error e => (w, Except.error e)
  | Except.ok pool =>
    match c.outputToFile w pool outputFilename options with
    | (w', Except.error e) => (w', Except.error (Exception.essentia e))
    | (w', Except.ok _) => (w', Except.ok ())

/-! ## `main` -/

/-- How a run of the program ends. -/
inductive Outcome where
  /-- The function `main` returns `status`, or `exit(status)` is called. -/
  | exit (status : Int)
  /-- An exception leaves `main`: the run is terminated abnormally. -/
  | terminate (e : Exception)
  deriving DecidableEq, Repr

/-- What a run does that can be observed: the text it prints and, as a ghost event, each call of
`process_single_file` with its result. -/
inductive Event where
  /-- The text printed by `usage(progname)`. -/
  | usage (progname : Str)
  /-- Line 133: `cerr << e.what()`. -/
  | cerr (e : EssentiaException)
  /-- Line 139: `cerr << "incorrect format specified: " << format`. -/
  | incorrectFormat (format : Str)
  /-- A call `process_single_file(extractor, input, output, format, options)` (line 147) that
  returned normally (`none`) or threw (`some e`). -/
  | call (input output : Str) (thrown : Option Exception)
  /-- Line 150: `cerr << "skipping " << inputFilename << " due to error: " << e.what()`. -/
  | skipping (input : Str) (e : EssentiaException)
  /-- Line 159: `cout << e.what()`. -/
  | cout (e : EssentiaException)
  deriving DecidableEq, Repr

/-- The loop of lines 113-116 from index `i` on, with the two vectors built so far. -/
def collectPairs (argv : List Str) (numinputs : Nat) (i : Nat) (inputFilenames : List Str)
    (outputFilenames : List Str) : List Str × List Str :=
  if i < numinputs then
    collectPairs argv numinputs (i + 2) (inputFilenames ++ [argv.getD i []])
      (outputFilenames ++ [argv.getD (i + 1) []])
  else
    (inputFilenames, outputFilenames)
termination_by numinputs - i

/-- Lines 92-116 of `main` for `argc >= 3`, with `argc = argv.length`: the profile filename and the
vectors of input and output filenames. -/
def parseArguments (argv : List Str) : Str × List Str × List Str :=
  let argc := argv.length
  let profileFilename : Str := if argc % 2 = 0 then argv.getD (argc - 1) [] else []
  let numinputs := argc - 1 + argc % 2
  (profileFilename, collectPairs argv numinputs 1 [] [])

/-- The `try` block of lines 122-131: the options and the classifier. -/
def startup {σ : Type} (c : Collaborators σ) (profileFilename : Str) (w : σ) :
    Except EssentiaException (Pool × Algorithm) := do
  c.init w
  let options ← c.setExtractorDefaultOptions []
  let options ← c.setExtractorOptions w profileFilename options
  let svmModels ← options.valueVectorString "highlevel.svm_models".toList
  let extractor ← c.createMusicExtractorSVM svmModels
  pure (options, extractor)

/-- The loop of lines 143-152 over the pairs `(inputFilenames[i], outputFilenames[i])`: the new
state of the world, the events, and the exception that leaves the loop, if any. -/
def batchLoop {σ : Type} (c : Collaborators σ) (vs : Versions) (extractor : Algorithm)
    (format : Str) (options : Pool) : List (Str × Str) → σ → σ × List Event × Option Exception
  | [], w => (w, [], none)
  | (inputFilename, outputFilename) :: rest, w =>
    match process_single_file c vs extractor inputFilename outputFilename format options w with
    | (w', Except.ok _) =>
      let r := batchLoop c vs extractor format options rest w'
      (r.1, Event.call inputFilename outputFilename none :: r.2.1, r.2.2)
    | (w', Except.error (Exception.essentia e)) =>
      let r := batchLoop c vs extractor format options rest w'
      (r.1, Event.call inputFilename outputFilename (some (Exception.essentia e)) ::
        Event.skipping inputFilename e :: r.2.1, r.2.2)
    | (w', Except.error e) =>
      (w', [Event.call inputFilename outputFilename (some e)], some e)

/-- A run of the program: how it ends, the final state of the world, and its events. -/
structure Run (σ : Type) where
  outcome : Outcome
  world : σ
  trace : List Event

/-- The function `main`, with `argc = argv.length`. -/
def main {σ : Type} (c : Collaborators σ) (vs : Versions) (argv : List Str) (w : σ) : Run σ :=
  if argv.length < 3 then
    ⟨Outcome.exit 1, w, [Event.usage (argv.getD 0 [])]⟩
  else
    match parseArguments argv with
    | (profileFilename, inputFilenames, outputFilenames) =>
      match startup c profileFilename w with
      | Except.error e => ⟨Outcome.exit 1, w, [Event.cerr e]⟩
      | Except.ok (options, extractor) =>
        match options.valueString "highlevel.inputFormat".toList with
        | Except.error e => ⟨Outcome.terminate (Exception.essentia e), w, []⟩
        | Except.ok format =>
          if format ≠ "json".toList ∧ format ≠ "yaml".toList then
            ⟨Outcome.exit 1, w, [Event.incorrectFormat format]⟩
          else
            match batchLoop c vs extractor format options
                (inputFilenames.zip outputFilenames) w with
            | (w', trace, some e) => ⟨Outcome.terminate e, w', trace⟩
            | (w', trace, none) =>
              match c.shutdown w' with
              | Except.error e => ⟨Outcome.exit 1, w', trace ++ [Event.cout e]⟩
              | Except.ok _ => ⟨Outcome.exit 0, w', trace⟩

/-! ## `Mean` -/

/-- Modelled from the spec: the function `mean` of `essentiamath.h` is missing from the sources;
"the arithmetic mean of the input sequence", which "fails only if the input sequence is empty"
(the policy chosen here is the error, not a NaN). -/
def mean (array : List Rat) : Except EssentiaException Rat :=
  if array.isEmpty then Except.error EssentiaException.emptyArray
  else Except.ok (array.sum / (array.length : Rat))

/-- The algorithm `Mean`: the value bound to its input port `_array` and to its output port
`_mean`. -/
structure Mean where
  _array : List Rat
  _mean : Rat

/-- The method `Mean::compute`: `_mean.get() = mean(_array.get())`. -/
def Mean.compute (m : Mean) : Except EssentiaException Mean := do
  let value ← mean m._array
  pure { m with _mean := value }

/-! ## Concrete collaborators, used to run the model on examples -/

/-- A file system: the files that hold a pool, by name, newest first. -/
abbrev Files := List (Str × Pool)

/-- The pool stored in the newest file called `name`. -/
def Files.read : Files → Str → Option Pool
  | [], _ => none
  | (n, p) :: rest, name => if n = name then some p else Files.read rest name

/-- Collaborators over `Files`: the loader reads the named file, the serializer writes the pool
as a new file, the merge adds no key, the classifier is `extractor`, and the options are
`options` whatever the profile. -/
def demo (options : Pool) (extractor : Algorithm) : Collaborators Files where
  yamlInput := fun w name _ =>
    match w.read name with
    | some p => Except.ok p
    | none => Except.error (EssentiaException.other ("cannot read ".toList ++ name))
  mergeValues := fun pool _ => Except.ok pool
  outputToFile := fun w pool name _ => ((name, pool) :: w, Except.ok ())
  init := fun _ => Except.ok ()
  setExtractorDefaultOptions := fun p => Except.ok p
  setExtractorOptions := fun _ _ _ => Except.ok options
  createMusicExtractorSVM := fun _ => Except.ok extractor
  shutdown := fun _ => Except.ok ()

/-- A classifier that leaves the pool as it is. -/
def noopExtractor : Algorithm := fun pool => Except.ok pool

/-- Some version constants. -/
def demoVersions : Versions where
  essentia_version := "2.1-beta6".toList
  essentia_version_git_sha := "v2.1_beta5-1".toList
  MUSIC_EXTRACTOR_VERSION := "music 2.0".toList
  gaia2_version := "2.4.6".toList
  gaia2_version_git_sha := "v2.4.6-3".toList

/-- Options with a JSON input format and no classifier model. -/
def demoOptions : Pool :=
  [("highlevel.inputFormat".toList, Value.string "json".toList),
   ("highlevel.svm_models".toList, Value.vectorString [])]

/-! ## Definitions used to state the properties -/

/-- The three namespaces removed by the clean step. -/
def cleanedNamespaces : List Str := ["lowlevel".toList, "rhythm".toList, "tonal".toList]

/-- The names of the five keys set in lines 77-81, after `"metadata.version."`. -/
def highlevelSuffixes : List Str :=
  ["highlevel.essentia".toList, "highlevel.essentia_git_sha".toList,
   "highlevel.extractor".toList, "highlevel.gaia".toList, "highlevel.gaia_git_sha".toList]

/-- A pool in which a key under `metadata.version` comes before the key that its new name
names. -/
def collisionPool : Pool :=
  [("metadata.version.a".toList, Value.string "1".toList),
   ("metadata.version.lowlevel.a".toList, Value.string "2".toList)]

/-- A pool as the low-level extractor writes it: two version keys and a tag. -/
def versionPool : Pool :=
  [("metadata.version.essentia".toList, Value.string "2.1-beta5".toList),
   ("metadata.tags.title".toList, Value.vectorString ["song".toList]),
   ("metadata.version.extractor".toList, Value.string "music 1.0".toList)]

/-- A pool in which a string-valued key under `metadata.version` comes before a key that holds a
number and that its new name names. -/
def typeCollisionPool : Pool :=
  [("metadata.version.a".toList, Value.string "1".toList),
   ("metadata.version.lowlevel.a".toList, Value.real 5)]

/-- A pool in which a key under `metadata.version` holds a number. -/
def numberVersionPool : Pool :=
  [("metadata.version.essentia".toList, Value.string "2.1-beta5".toList),
   ("metadata.version.build".toList, Value.real 5)]

/-- The input pool of the end-to-end scenario: three raw descriptors and one version key. -/
def scenarioPool : Pool :=
  [("lowlevel.a".toList, Value.real 1), ("rhythm.b".toList, Value.real 2),
   ("tonal.c".toList, Value.real 3),
   ("metadata.version.lowlevel_extractor".toList, Value.string "xyz".toList)]

/-- An input pool that already has a key under `metadata.version.highlevel`. -/
def rerunPool : Pool :=
  [("metadata.version.essentia".toList, Value.string "2.1-beta5".toList),
   ("metadata.version.highlevel.essentia".toList, Value.string "2.1-beta4".toList)]

/-- The pairs on which `process_single_file` is called, in the order of the calls. -/
def callsOf : List Event → List (Str × Str)
  | [] => []
  | Event.call input output _ :: rest => (input, output) :: callsOf rest
  | _ :: rest => callsOf rest

/-- The calls of `process_single_file` that threw: the input and the exception, in the order of
the calls. -/
def failuresOf : List Event → List (Str × Exception)
  | [] => []
  | Event.call input _ (some e) :: rest => (input, e) :: failuresOf rest
  | _ :: rest => failuresOf rest

/-- The "skipping" diagnostics: the input they name and the error they report, in the order in
which they are printed. -/
def diagnosticsOf : List Event → List (Str × Exception)
  | [] => []
  | Event.skipping input e :: rest => (input, Exception.essentia e) :: diagnosticsOf rest
  | _ :: rest => diagnosticsOf rest

/-- The events are calls of `process_single_file`, each failed call is followed at once by the one
"skipping" diagnostic that names its input and its error, and there is no other event. -/
def wellPaired : List Event → Bool
  | [] => true
  | Event.call _ _ none :: rest => wellPaired rest
  | Event.call input _ (some (Exception.essentia e)) :: Event.skipping input' e' :: rest =>
    decide (input = input') && decide (e = e') && wellPaired rest
  | _ => false

/-- Options whose input format is a number. -/
def numericFormatOptions : Pool :=
  [("highlevel.inputFormat".toList, Value.real 1),
   ("highlevel.svm_models".toList, Value.vectorString [])]

/-- The command line `prog a b c d profile`. -/
def demoArgv : List Str :=
  ["prog".toList, "a".toList, "b".toList, "c".toList, "d".toList, "profile".toList]

/-- The state of the world after `process_single_file` has been called on each of the pairs in
turn, starting from `w`, whatever the calls return or throw. -/
def worldAfter {σ : Type} (c : Collaborators σ) (vs : Versions) (extractor : Algorithm)
    (format : Str) (options : Pool) : List (Str × Str) → σ → σ
  | [], w => w
  | (inputFilename, outputFilename) :: rest, w =>
    worldAfter c vs extractor format options rest
      (process_single_file c vs extractor inputFilename outputFilename format options w).1

/-- What `process_single_file` does on each of the pairs when it is called on them in turn,
starting from `w`: the pair, and the exception that the call throws, if any. -/
def outcomes {σ : Type} (c : Collaborators σ) (vs : Versions) (extractor : Algorithm)
    (format : Str) (options : Pool) : List (Str × Str) → σ → List (Str × Str × Option Exception)
  | [], _ => []
  | (inputFilename, outputFilename) :: rest, w =>
    match process_single_file c vs extractor inputFilename outputFilename format options w with
    | (w', Except.ok _) =>
      (inputFilename, outputFilename, none) :: outcomes c vs extractor format options rest w'
    | (w', Except.error e) =>
      (inputFilename, outputFilename, some e) :: outcomes c vs extractor format options rest w'

/-- The failing pairs: the inputs on which `process_single_file` throws when it is called on the
pairs in turn, each with the exception thrown, in order. -/
def failingPairs {σ : Type} (c : Collaborators σ) (vs : Versions) (extractor : Algorithm)
    (format : Str) (options : Pool) (pairs : List (Str × Str)) (w : σ) : List (Str × Exception) :=
  (outcomes c vs extractor format options pairs w).filterMap
    (fun x => x.2.2.map (fun e => (x.1, e)))

/-- The calls of `process_single_file` recorded in the events, each with the exception recorded
for it, in the order of the calls. -/
def callResultsOf : List Event → List (Str × Str × Option Exception)
  | [] => []
  | Event.call input output thrown :: rest => (input, output, thrown) :: callResultsOf rest
  | _ :: rest => callResultsOf rest

/-- A batch of two pairs: the first input is not a file, the second is. -/
def demoPairs : List (Str × Str) :=
  [("missing.json".toList, "out1.json".toList), ("in.json".toList, "out2.json".toList)]

/-! ## Lemmas on the pool -/

namespace Pool

theorem lookup_set (p : Pool) (k : Str) (v : Value) (x : Str) :
    lookup (set p k v) x = if k = x then some v else lookup p x := by
  induction p with
  | nil => simp [set, lookup]
  | cons e rest ih =>
    obtain ⟨k', v'⟩ := e
    by_cases h : k' = k
    · subst h
      by_cases hx : k' = x <;> simp [set, lookup, hx]
    · by_cases hx : k' = x
      · subst hx
        have h' : ¬ k = k' := fun e => h e.symm
        simp [set, lookup, h, h']
      · simp [set, lookup, h, hx, ih]

theorem lookup_remove (p : Pool) (k x : Str) :
    lookup (remove p k) x = if k = x then none else lookup p x := by
  induction p with
  | nil => simp [remove, lookup]
  | cons e rest ih =>
    obtain ⟨k', v'⟩ := e
    by_cases h : k' = k
    · subst h
      by_cases hx : k' = x
      · subst hx
        simpa [remove] using ih
      · simp [remove, lookup, hx, ih]
    · by_cases hx : k' = x
      · subst hx
        have h' : ¬ k = k' := fun e => h e.symm
        simp [remove, lookup, h, h']
      · simp [remove, lookup, h, hx, ih]

theorem lookup_eq_none_iff (p : Pool) (x : Str) : lookup p x = none ↔ x ∉ p.keys := by
  induction p with
  | nil => simp [lookup, keys]
  | cons e rest ih =>
    obtain ⟨k', v'⟩ := e
    by_cases hx : k' = x
    · simp [lookup, keys, hx]
    · have hx' : ¬ x = k' := fun e => hx e.symm
      simp only [keys] at ih
      simp [lookup, keys, hx, hx', ih]

theorem mem_keys_iff (p : Pool) (x : Str) : x ∈ p.keys ↔ ∃ v, lookup p x = some v := by
  rw [← not_iff_not, ← lookup_eq_none_iff]
  cases lookup p x <;> simp

theorem mem_keys_set (p : Pool) (k : Str) (v : Value) (x : Str) :
    x ∈ (set p k v).keys ↔ x = k ∨ x ∈ p.keys := by
  rw [mem_keys_iff, lookup_set]
  by_cases h : k = x
  · simp [h]
  · have h' : ¬ x = k := fun e => h e.symm
    simp [h, h', mem_keys_iff]

theorem mem_keys_remove (p : Pool) (k x : Str) :
    x ∈ (remove p k).keys ↔ x ≠ k ∧ x ∈ p.keys := by
  rw [mem_keys_iff, lookup_remove]
  by_cases h : k = x
  · simp [h]
  · have h' : ¬ x = k := fun e => h e.symm
    simp [h, h', mem_keys_iff]

theorem keys_remove (p : Pool) (k : Str) :
    (remove p k).keys = p.keys.filter (fun x => decide (x ≠ k)) := by
  induction p with
  | nil => simp [remove, keys]
  | cons e rest ih =>
    obtain ⟨k', v'⟩ := e
    simp only [keys] at ih
    by_cases h : k' = k
    · simp [remove, keys, h, ih]
    · simp [remove, keys, h, ih]

theorem WF_remove (p : Pool) (k : Str) (h : p.WF) : (remove p k).WF := by
  unfold WF at *
  rw [keys_remove]
  exact h.filter _

theorem set_of_not_mem (p : Pool) (k : Str) (v : Value) (h : k ∉ p.keys) :
    set p k v = p ++ [(k, v)] := by
  induction p with
  | nil => simp [set]
  | cons e rest ih =>
    obtain ⟨k', v'⟩ := e
    simp only [keys, List.map_cons, List.mem_cons, not_or] at h
    have h1 : ¬ k' = k := fun e => h.1 e.symm
    simp [set, h1, ih h.2]

theorem keys_set_of_mem (p : Pool) (k : Str) (v : Value) (h : k ∈ p.keys) :
    (set p k v).keys = p.keys := by
  induction p with
  | nil => simp [keys] at h
  | cons e rest ih =>
    obtain ⟨k', v'⟩ := e
    by_cases h1 : k' = k
    · simp [set, h1, keys]
    · have : k ∈ keys rest := by
        simp only [keys, List.map_cons, List.mem_cons] at h
        rcases h with h | h
        · exact absurd h.symm h1
        · exact h
      simp only [keys] at ih
      simp [set, h1, keys, ih this]

theorem WF_set (p : Pool) (k : Str) (v : Value) (h : p.WF) : (set p k v).WF := by
  unfold WF at *
  by_cases hk : k ∈ p.keys
  · rw [keys_set_of_mem p k v hk]; exact h
  · rw [set_of_not_mem p k v hk]
    simp only [keys, List.map_append, List.map_cons, List.map_nil]
    rw [List.nodup_append]
    refine ⟨h, by simp, ?_⟩
    intro a ha hb
    simp at hb
    simp only [keys] at hk
    simp at ha
    subst hb
    apply hk
    simpa using ha

end Pool

/-! ## Lemmas on the rewrite loop -/

theorem under_mv_iff (k : Str) : Pool.under metadataVersion k = true ↔ ∃ s, k = mvDot ++ s := by
  unfold Pool.under
  rw [List.isPrefixOf_iff_prefix]
  constructor
  · rintro ⟨t, ht⟩
    exact ⟨t, ht.symm⟩
  · rintro ⟨s, hs⟩
    exact ⟨s, hs.symm⟩

theorem relocated_mvDot (s : Str) : relocated (mvDot ++ s) = mvLow ++ s := rfl

theorem newKey_mvDot (s : Str) : newKey (mvDot ++ s) = Except.ok (mvLow ++ s) := by
  have h : 17 ≤ (mvDot ++ s).length := by
    rw [List.length_append]
    have : mvDot.length = 17 := rfl
    omega
  simp only [newKey, substr, h, if_true]
  rfl

theorem newKey_of_under (k : Str) (h : Pool.under metadataVersion k = true) :
    newKey k = Except.ok (relocated k) := by
  obtain ⟨s, rfl⟩ := (under_mv_iff k).1 h
  rw [newKey_mvDot, relocated_mvDot]

theorem relocated_inj (a b : Str) (ha : Pool.under metadataVersion a = true)
    (hb : Pool.under metadataVersion b = true) (h : relocated a = relocated b) : a = b := by
  obtain ⟨s, rfl⟩ := (under_mv_iff a).1 ha
  obtain ⟨t, rfl⟩ := (under_mv_iff b).1 hb
  rw [relocated_mvDot, relocated_mvDot] at h
  rw [List.append_cancel_left h]

theorem length_relocated (k : Str) (h : Pool.under metadataVersion k = true) :
    (relocated k).length = k.length + 9 := by
  obtain ⟨s, rfl⟩ := (under_mv_iff k).1 h
  rw [relocated_mvDot, List.length_append, List.length_append]
  have h1 : mvDot.length = 17 := rfl
  have h2 : mvLow.length = 26 := rfl
  omega

theorem relocated_ne (k : Str) (h : Pool.under metadataVersion k = true) : relocated k ≠ k := by
  intro e
  have := length_relocated k h
  rw [e] at this
  omega

theorem mvLow_eq : mvLow = mvDot ++ "lowlevel.".toList := by decide

theorem under_relocated (k : Str) : Pool.under metadataVersion (relocated k) = true := by
  rw [under_mv_iff]
  exact ⟨"lowlevel.".toList ++ k.drop 17, by rw [relocated, mvLow_eq, List.append_assoc]⟩

theorem rewriteLoop_nil (p : Pool) : rewriteLoop [] p = Except.ok p := rfl

theorem rewriteLoop_cons (k : Str) (ks : List Str) (p : Pool) :
    rewriteLoop (k :: ks) p = (rewriteKey p k >>= rewriteLoop ks) := by
  show List.foldlM rewriteKey p (k :: ks) = _
  rw [List.foldlM_cons]
  rfl

theorem rewriteLoop_append (ks ks' : List Str) (p : Pool) :
    rewriteLoop (ks ++ ks') p = (rewriteLoop ks p >>= rewriteLoop ks') := by
  show List.foldlM rewriteKey p (ks ++ ks') = _
  rw [List.foldlM_append]
  rfl

theorem rewriteKey_string (p : Pool) (k s : Str) (hk : Pool.under metadataVersion k = true)
    (h : p.lookup k = some (Value.string s)) :
    rewriteKey p k = Except.ok ((p.set (relocated k) (Value.string s)).remove k) := by
  simp only [rewriteKey, newKey_of_under k hk, Pool.valueString, h, liftE]
  rfl

theorem rewriteKey_not_string (p : Pool) (k : Str) (v : Value)
    (hk : Pool.under metadataVersion k = true)
    (h : p.lookup k = some v) (hv : v.isString = false) :
    rewriteKey p k = Except.error (Exception.essentia (EssentiaException.typeMismatch k)) := by
  simp only [rewriteKey, newKey_of_under k hk, Pool.valueString, h, liftE]
  cases v <;> first | rfl | simp [Value.isString] at hv

theorem rewriteKey_ok_iff (p p' : Pool) (k : Str) (hk : Pool.under metadataVersion k = true) :
    rewriteKey p k = Except.ok p' ↔
      ∃ s, p.lookup k = some (Value.string s) ∧
        p' = (p.set (relocated k) (Value.string s)).remove k := by
  constructor
  · intro h
    cases hl : p.lookup k with
    | none =>
      simp only [rewriteKey, newKey_of_under k hk, Pool.valueString, hl, liftE] at h
      cases h
    | some v =>
      cases v with
      | string s =>
        rw [rewriteKey_string p k s hk hl] at h
        injection h with h
        exact ⟨s, rfl, h.symm⟩
      | real x => rw [rewriteKey_not_string p k _ hk hl rfl] at h; cases h
      | vectorReal x => rw [rewriteKey_not_string p k _ hk hl rfl] at h; cases h
      | vectorString x => rw [rewriteKey_not_string p k _ hk hl rfl] at h; cases h
  · rintro ⟨s, hl, rfl⟩
    exact rewriteKey_string p k s hk hl


theorem lookup_step (p : Pool) (k s x : Str) :
    ((p.set (relocated k) (Value.string s)).remove k).lookup x =
      if k = x then none else if relocated k = x then some (Value.string s) else p.lookup x := by
  rw [Pool.lookup_remove, Pool.lookup_set]

theorem mem_keys_step (p : Pool) (k s x : Str) :
    x ∈ ((p.set (relocated k) (Value.string s)).remove k).keys ↔
      x ≠ k ∧ (x = relocated k ∨ x ∈ p.keys) := by
  rw [Pool.mem_keys_remove, Pool.mem_keys_set]

theorem rewriteLoop_cons_ok (k : Str) (ks : List Str) (p p' : Pool)
    (hk : Pool.under metadataVersion k = true) :
    rewriteLoop (k :: ks) p = Except.ok p' ↔
      ∃ s, p.lookup k = some (Value.string s) ∧
        rewriteLoop ks ((p.set (relocated k) (Value.string s)).remove k) = Except.ok p' := by
  rw [rewriteLoop_cons]
  constructor
  · intro h
    cases h1 : rewriteKey p k with
    | error e => rw [h1] at h; cases h
    | ok p1 =>
      rw [h1] at h
      obtain ⟨s, hs, rfl⟩ := (rewriteKey_ok_iff p p1 k hk).1 h1
      exact ⟨s, hs, h⟩
  · rintro ⟨s, hs, h⟩
    rw [rewriteKey_string p k s hk hs]
    exact h

/-- Frame property of the loop: a key that is neither relocated nor the new name of a relocated
key keeps what it holds. -/
theorem rewriteLoop_frame (x : Str) : ∀ (ks : List Str) (p p' : Pool),
    (∀ k ∈ ks, Pool.under metadataVersion k = true) → rewriteLoop ks p = Except.ok p' →
    x ∉ ks → x ∉ ks.map relocated → p'.lookup x = p.lookup x := by
  intro ks
  induction ks with
  | nil =>
    intro p p' _ h _ _
    rw [rewriteLoop_nil] at h
    injection h with h
    rw [h]
  | cons k ks ih =>
    intro p p' hu h hx hx'
    have hk := hu k (List.mem_cons_self _ _)
    obtain ⟨s, _, h2⟩ := (rewriteLoop_cons_ok k ks p p' hk).1 h
    simp only [List.mem_cons, not_or, List.map_cons] at hx hx'
    rw [ih _ p' (fun a ha => hu a (List.mem_cons_of_mem _ ha)) h2 hx.2 hx'.2, lookup_step]
    have h3 : ¬ k = x := fun e => hx.1 e.symm
    have h4 : ¬ relocated k = x := fun e => hx'.1 e.symm
    simp [h3, h4]

/-- Keys that are not relocated stay in the pool. -/
theorem rewriteLoop_keys_mono (x : Str) : ∀ (ks : List Str) (p p' : Pool),
    (∀ k ∈ ks, Pool.under metadataVersion k = true) → rewriteLoop ks p = Except.ok p' →
    x ∈ p.keys → x ∉ ks → x ∈ p'.keys := by
  intro ks
  induction ks with
  | nil =>
    intro p p' _ h hx _
    rw [rewriteLoop_nil] at h
    injection h with h
    rw [← h]; exact hx
  | cons k ks ih =>
    intro p p' hu h hx hx'
    have hk := hu k (List.mem_cons_self _ _)
    obtain ⟨s, _, h2⟩ := (rewriteLoop_cons_ok k ks p p' hk).1 h
    simp only [List.mem_cons, not_or] at hx'
    refine ih _ p' (fun a ha => hu a (List.mem_cons_of_mem _ ha)) h2 ?_ hx'.2
    rw [mem_keys_step]
    exact ⟨hx'.1, Or.inr hx⟩

/-- Every key of the pool after the loop is an untouched old key or a new name. -/
theorem rewriteLoop_keys_sub (x : Str) : ∀ (ks : List Str) (p p' : Pool),
    (∀ k ∈ ks, Pool.under metadataVersion k = true) → rewriteLoop ks p = Except.ok p' →
    x ∈ p'.keys → (x ∈ p.keys ∧ x ∉ ks) ∨ x ∈ ks.map relocated := by
  intro ks
  induction ks with
  | nil =>
    intro p p' _ h hx
    rw [rewriteLoop_nil] at h
    injection h with h
    rw [h]; exact Or.inl ⟨hx, List.not_mem_nil _⟩
  | cons k ks ih =>
    intro p p' hu h hx
    have hk := hu k (List.mem_cons_self _ _)
    obtain ⟨s, _, h2⟩ := (rewriteLoop_cons_ok k ks p p' hk).1 h
    rcases ih _ p' (fun a ha => hu a (List.mem_cons_of_mem _ ha)) h2 hx with ⟨h3, h4⟩ | h3
    · rw [mem_keys_step] at h3
      rcases h3 with ⟨h5, h6 | h6⟩
      · right; rw [h6]; simp
      · left
        refine ⟨h6, ?_⟩
        simp only [List.mem_cons, not_or]
        exact ⟨h5, h4⟩
    · right
      rw [List.map_cons]
      exact List.mem_cons_of_mem _ h3

/-- The loop keeps the keys of the pool unique. -/
theorem rewriteLoop_WF : ∀ (ks : List Str) (p p' : Pool),
    (∀ k ∈ ks, Pool.under metadataVersion k = true) → rewriteLoop ks p = Except.ok p' →
    p.WF → p'.WF := by
  intro ks
  induction ks with
  | nil =>
    intro p p' _ h hw
    rw [rewriteLoop_nil] at h
    injection h with h
    rw [← h]; exact hw
  | cons k ks ih =>
    intro p p' hu h hw
    have hk := hu k (List.mem_cons_self _ _)
    obtain ⟨s, _, h2⟩ := (rewriteLoop_cons_ok k ks p p' hk).1 h
    exact ih _ p' (fun a ha => hu a (List.mem_cons_of_mem _ ha)) h2
      (Pool.WF_remove _ _ (Pool.WF_set _ _ _ hw))

/-- The loop completes when the keys it visits are distinct and all hold strings. -/
theorem rewriteLoop_succeeds : ∀ (ks : List Str) (p : Pool),
    (∀ k ∈ ks, Pool.under metadataVersion k = true) → ks.Nodup →
    (∀ k ∈ ks, ∃ s, p.lookup k = some (Value.string s)) → ∃ p', rewriteLoop ks p = Except.ok p' := by
  intro ks
  induction ks with
  | nil => intro p _ _ _; exact ⟨p, rfl⟩
  | cons k ks ih =>
    intro p hu hn hs
    have hk := hu k (List.mem_cons_self _ _)
    obtain ⟨s, hks⟩ := hs k (List.mem_cons_self _ _)
    rw [List.nodup_cons] at hn
    have := ih ((p.set (relocated k) (Value.string s)).remove k)
      (fun a ha => hu a (List.mem_cons_of_mem _ ha)) hn.2 (by
        intro a ha
        rw [lookup_step]
        have h1 : ¬ k = a := fun e => hn.1 (e ▸ ha)
        by_cases h2 : relocated k = a
        · exact ⟨s, by simp [h1, h2]⟩
        · obtain ⟨t, ht⟩ := hs a (List.mem_cons_of_mem _ ha)
          exact ⟨t, by simp [h1, h2, ht]⟩)
    obtain ⟨p', hp'⟩ := this
    exact ⟨p', (rewriteLoop_cons_ok k ks p p' hk).2 ⟨s, hks, hp'⟩⟩

/-- The loop never lets the `std::out_of_range` of `substr` escape, and never misses a key: when
it visits distinct keys of the pool under `metadata.version`, it completes or fails with a type
mismatch. -/
theorem rewriteLoop_ok_or_typeMismatch : ∀ (ks : List Str) (p : Pool),
    (∀ k ∈ ks, Pool.under metadataVersion k = true) → ks.Nodup → (∀ k ∈ ks, k ∈ p.keys) →
    (∃ p', rewriteLoop ks p = Except.ok p') ∨
      ∃ k, rewriteLoop ks p = Except.error (Exception.essentia (EssentiaException.typeMismatch k)) := by
  intro ks
  induction ks with
  | nil => intro p _ _ _; exact Or.inl ⟨p, rfl⟩
  | cons k ks ih =>
    intro p hu hn hs
    have hk := hu k (List.mem_cons_self _ _)
    rw [List.nodup_cons] at hn
    obtain ⟨v, hv⟩ := (Pool.mem_keys_iff p k).1 (hs k (List.mem_cons_self _ _))
    cases hvs : v.isString with
    | false =>
      right
      refine ⟨k, ?_⟩
      rw [rewriteLoop_cons, rewriteKey_not_string p k v hk hv hvs]
      rfl
    | true =>
      cases v with
      | string s =>
        have h1 := rewriteKey_string p k s hk hv
        rw [rewriteLoop_cons, h1]
        refine ih _ (fun a ha => hu a (List.mem_cons_of_mem _ ha)) hn.2 ?_
        intro a ha
        rw [mem_keys_step]
        exact ⟨fun e => hn.1 (e ▸ ha), Or.inr (hs a (List.mem_cons_of_mem _ ha))⟩
      | real x => simp [Value.isString] at hvs
      | vectorReal x => simp [Value.isString] at hvs
      | vectorString x => simp [Value.isString] at hvs

/-- After the loop every key under `metadata.version` holds a string, when this was so before for
the keys the loop does not visit. -/
theorem rewriteLoop_strings : ∀ (ks : List Str) (p p' : Pool),
    (∀ k ∈ ks, Pool.under metadataVersion k = true) → rewriteLoop ks p = Except.ok p' →
    (∀ x, Pool.under metadataVersion x = true → x ∈ p.keys → x ∉ ks →
      ∃ s, p.lookup x = some (Value.string s)) →
    ∀ x, Pool.under metadataVersion x = true → x ∈ p'.keys →
      ∃ s, p'.lookup x = some (Value.string s) := by
  intro ks
  induction ks with
  | nil =>
    intro p p' _ h hs x hx hxk
    rw [rewriteLoop_nil] at h
    injection h with h
    subst h
    exact hs x hx hxk (List.not_mem_nil _)
  | cons k ks ih =>
    intro p p' hu h hs
    have hk := hu k (List.mem_cons_self _ _)
    obtain ⟨s, _, h2⟩ := (rewriteLoop_cons_ok k ks p p' hk).1 h
    refine ih _ p' (fun a ha => hu a (List.mem_cons_of_mem _ ha)) h2 ?_
    intro x hx hxk hxn
    rw [mem_keys_step] at hxk
    rw [lookup_step]
    have h1 : ¬ k = x := fun e => hxk.1 e.symm
    by_cases h3 : relocated k = x
    · exact ⟨s, by simp [h1, h3]⟩
    · have h4 : x ∈ p.keys := by
        rcases hxk.2 with h5 | h5
        · exact absurd h5.symm h3
        · exact h5
      obtain ⟨t, ht⟩ := hs x hx h4 (by
        simp only [List.mem_cons, not_or]
        exact ⟨hxk.1, hxn⟩)
      exact ⟨t, by simp [h1, h3, ht]⟩

theorem under_of_mem_descriptorNames (p : Pool) (ns k : Str) (h : k ∈ p.descriptorNames ns) :
    Pool.under ns k = true := by
  unfold Pool.descriptorNames at h
  exact (List.mem_filter.1 h).2

theorem mem_descriptorNames (p : Pool) (ns k : Str) :
    k ∈ p.descriptorNames ns ↔ k ∈ p.keys ∧ Pool.under ns k = true := by
  unfold Pool.descriptorNames
  exact List.mem_filter

theorem nodup_descriptorNames (p : Pool) (ns : Str) (h : p.WF) : (p.descriptorNames ns).Nodup := by
  unfold Pool.descriptorNames
  exact h.filter _


theorem bind_eq_ok {ε α β : Type} (x : Except ε α) (f : α → Except ε β) (b : β)
    (h : (x >>= f) = Except.ok b) : ∃ a, x = Except.ok a ∧ f a = Except.ok b := by
  cases x with
  | error e => cases h
  | ok a => exact ⟨a, rfl, h⟩


theorem holdsString_iff (p : Pool) (k : Str) :
    p.holdsString k = true ↔ ∃ s, p.lookup k = some (Value.string s) := by
  unfold Pool.holdsString
  cases h : p.lookup k with
  | none => simp
  | some v => cases v <;> simp

/-- The value that the loop leaves under the new name of a key `K` that is visited between the
keys `pre` and the keys `post`. -/
theorem rewriteLoop_value (p p' : Pool) (K v : Str) (pre post : List Str)
    (hu : ∀ k ∈ pre ++ K :: post, Pool.under metadataVersion k = true)
    (hn : (pre ++ K :: post).Nodup)
    (hK : p.lookup K = some (Value.string v))
    (hpre : ∀ k' ∈ pre, relocated k' ≠ K)
    (hpost : relocated K ∉ post)
    (h : rewriteLoop (pre ++ K :: post) p = Except.ok p') :
    p'.lookup (relocated K) = some (Value.string v) := by
  rw [rewriteLoop_append] at h
  obtain ⟨p1, h1, h2⟩ := bind_eq_ok _ _ _ h
  have hupre : ∀ k ∈ pre, Pool.under metadataVersion k = true :=
    fun k hk => hu k (List.mem_append_left _ hk)
  have hupost : ∀ k ∈ post, Pool.under metadataVersion k = true :=
    fun k hk => hu k (List.mem_append_right _ (List.mem_cons_of_mem _ hk))
  have huK : Pool.under metadataVersion K = true :=
    hu _ (List.mem_append_right _ (List.mem_cons_self _ _))
  rw [List.nodup_append] at hn
  obtain ⟨_, hn2, hn3⟩ := hn
  rw [List.nodup_cons] at hn2
  have hKpre : K ∉ pre := fun hm => hn3 hm (List.mem_cons_self _ _)
  have hKpre' : K ∉ pre.map relocated := by
    intro hm
    obtain ⟨k', hk', hk'2⟩ := List.mem_map.1 hm
    exact hpre k' hk' hk'2
  have hf1 := rewriteLoop_frame K pre p p1 hupre h1 hKpre hKpre'
  obtain ⟨t, ht, h3⟩ := (rewriteLoop_cons_ok _ post p1 p' huK).1 h2
  rw [hf1, hK] at ht
  injection ht with ht
  injection ht with ht
  subst ht
  have hpost' : relocated K ∉ post.map relocated := by
    intro hm
    obtain ⟨k', hk', hk'2⟩ := List.mem_map.1 hm
    have := relocated_inj k' _ (hupost k' hk') huK hk'2
    exact hn2.1 (this ▸ hk')
  rw [rewriteLoop_frame (relocated K) post _ p' hupost h3 hpost hpost', lookup_step]
  have h5 : ¬ K = relocated K := fun e => relocated_ne _ huK e.symm
  simp [h5]

theorem remove_eq_filter (p : Pool) (k : Str) :
    p.remove k = p.filter (fun e => decide (e.1 ≠ k)) := by
  induction p with
  | nil => rfl
  | cons e rest ih =>
    obtain ⟨k', v'⟩ := e
    by_cases h : k' = k
    · simp only [Pool.remove, h, if_true, ih]
      rw [List.filter_cons_of_neg (by simp)]
    · simp only [Pool.remove, h, if_false, ih]
      rw [List.filter_cons_of_pos (by simpa using h)]

/-- The pool after the loop when no new name is a key of the pool: the entries that are not
visited, then the visited entries under their new names, in the order of the visit. -/
theorem rewriteLoop_fresh : ∀ (ks : List Str) (p : Pool),
    (∀ k ∈ ks, Pool.under metadataVersion k = true) → ks.Nodup →
    (∀ k ∈ ks, relocated k ∉ p.keys) →
    (∀ k ∈ ks, ∃ s, p.lookup k = some (Value.string s)) →
    rewriteLoop ks p = Except.ok (p.filter (fun e => decide (e.1 ∉ ks)) ++
      ks.map (fun k => (relocated k, (p.lookup k).getD default))) := by
  intro ks
  induction ks with
  | nil => intro p _ _ _ _; simp [rewriteLoop_nil]
  | cons k ks ih =>
    intro p hu hn hf hs
    have hk := hu k (List.mem_cons_self _ _)
    obtain ⟨s, hks⟩ := hs k (List.mem_cons_self _ _)
    rw [List.nodup_cons] at hn
    have hmem : ∀ a ∈ ks, a ∈ p.keys := by
      intro a ha
      obtain ⟨t, ht⟩ := hs a (List.mem_cons_of_mem _ ha)
      exact (Pool.mem_keys_iff p a).2 ⟨_, ht⟩
    have hrk : relocated k ∉ ks := fun hm => hf k (List.mem_cons_self _ _) (hmem _ hm)
    have hlk : ∀ a ∈ ks, ((p.set (relocated k) (Value.string s)).remove k).lookup a =
        p.lookup a := by
      intro a ha
      rw [lookup_step]
      have h1 : ¬ k = a := fun e => hn.1 (e ▸ ha)
      have h2 : ¬ relocated k = a := fun e => hrk (e ▸ ha)
      simp [h1, h2]
    rw [(rewriteLoop_cons_ok k ks p _ hk).2 ⟨s, hks, ih _
      (fun a ha => hu a (List.mem_cons_of_mem _ ha)) hn.2 ?_ ?_⟩]
    · congr 1
      have hp1 : (p.set (relocated k) (Value.string s)).remove k =
          List.filter (fun e => decide (e.1 ≠ k)) p ++ [(relocated k, Value.string s)] := by
        rw [Pool.set_of_not_mem p _ _ (hf k (List.mem_cons_self _ _)), remove_eq_filter,
          List.filter_append]
        congr 1
        rw [List.filter_cons_of_pos (by simpa using relocated_ne k hk)]
        rfl
      have e2 : List.filter (fun e => decide (e.1 ∉ ks)) [(relocated k, Value.string s)] =
          [(relocated k, Value.string s)] := by
        rw [List.filter_cons_of_pos (by simpa using hrk)]
        rfl
      have e3 : List.map (fun a => (relocated a,
          (((p.set (relocated k) (Value.string s)).remove k).lookup a).getD default)) ks =
          List.map (fun a => (relocated a, (p.lookup a).getD default)) ks := by
        apply List.map_congr_left
        intro a ha
        rw [hlk a ha]
      have e4 : List.filter (fun a => decide (a.1 ∉ ks) && decide (a.1 ≠ k)) p =
          List.filter (fun e => decide (e.1 ∉ k :: ks)) p := by
        apply List.filter_congr
        intro x _
        by_cases hx1 : x.1 = k <;> by_cases hx2 : x.1 ∈ ks <;> simp [hx1, hx2]
      rw [e3, hp1, List.filter_append, List.filter_filter, e2, e4, List.map_cons, hks]
      simp
    · intro a ha hm
      rw [mem_keys_step] at hm
      rcases hm.2 with h1 | h1
      · exact hn.1 (relocated_inj a k (hu a (List.mem_cons_of_mem _ ha)) hk h1 ▸ ha)
      · exact hf a (List.mem_cons_of_mem _ ha) h1
    · intro a ha
      rw [hlk a ha]
      exact hs a (List.mem_cons_of_mem _ ha)

theorem descriptorNames_append (p q : Pool) (ns : Str) :
    Pool.descriptorNames (p ++ q) ns = Pool.descriptorNames p ns ++ Pool.descriptorNames q ns := by
  simp [Pool.descriptorNames, Pool.keys]

/-- The enumeration under `metadata.version` after the loop when no new name is a key of the
pool: the new names, in the order of the old ones. -/
theorem versionRewriteLoop_fresh (p : Pool) (hwf : p.WF)
    (hs : ∀ k ∈ p.descriptorNames metadataVersion, p.holdsString k = true)
    (hf : ∀ k ∈ p.descriptorNames metadataVersion, relocated k ∉ p.keys) :
    ∃ p', versionRewriteLoop p = Except.ok p' ∧
      p'.descriptorNames metadataVersion = (p.descriptorNames metadataVersion).map relocated := by
  refine ⟨_, rewriteLoop_fresh _ p (fun k hk => under_of_mem_descriptorNames p _ k hk)
    (nodup_descriptorNames p _ hwf) hf (fun k hk => (holdsString_iff p k).1 (hs k hk)), ?_⟩
  rw [descriptorNames_append]
  have h1 : Pool.descriptorNames
      (List.filter (fun e => decide (e.1 ∉ p.descriptorNames metadataVersion)) p)
      metadataVersion = [] := by
    unfold Pool.descriptorNames Pool.keys
    rw [List.filter_eq_nil_iff]
    intro a ha hua
    obtain ⟨e, he, rfl⟩ := List.mem_map.1 ha
    have he2 := (List.mem_filter.1 he).2
    have he1 := (List.mem_filter.1 he).1
    have : e.1 ∈ p.descriptorNames metadataVersion :=
      (mem_descriptorNames p _ _).2 ⟨List.mem_map.2 ⟨e, he1, rfl⟩, hua⟩
    exact of_decide_eq_true he2 this
  have h2 : Pool.descriptorNames (List.map (fun k => (relocated k, (p.lookup k).getD default))
      (p.descriptorNames metadataVersion)) metadataVersion =
      (p.descriptorNames metadataVersion).map relocated := by
    generalize p.descriptorNames metadataVersion = ks
    unfold Pool.descriptorNames Pool.keys
    rw [List.map_map]
    have e : List.map (Prod.fst ∘ fun k => (relocated k, (p.lookup k).getD default)) ks =
        List.map relocated ks := List.map_congr_left (fun _ _ => rfl)
    rw [e, List.filter_eq_self]
    intro a ha
    obtain ⟨k, _, rfl⟩ := List.mem_map.1 ha
    exact under_relocated k
  rw [h1, h2, List.nil_append]


/-! ## Lemmas on the clean step -/

theorem lookup_filter_key (q : Str → Bool) (p : Pool) (x : Str) :
    Pool.lookup (p.filter (fun e => q e.1)) x = if q x = true then p.lookup x else none := by
  induction p with
  | nil => simp [Pool.lookup]
  | cons e rest ih =>
    obtain ⟨k', v'⟩ := e
    by_cases hq : q k' = true
    · rw [List.filter_cons]
      simp only [hq, if_true]
      by_cases hx : k' = x
      · subst hx
        simp [Pool.lookup, hq]
      · simp only [Pool.lookup, hx, if_false, ih]
    · rw [List.filter_cons]
      simp only [hq]
      rw [if_neg (by simp), ih]
      by_cases hx : k' = x
      · subst hx
        simp [hq]
      · simp [Pool.lookup, hx]

theorem keys_filter_key (q : Str → Bool) (p : Pool) :
    Pool.keys (p.filter (fun e => q e.1)) = p.keys.filter q := by
  unfold Pool.keys
  rw [List.filter_map]
  rfl

theorem decide_three (a b c d : Str) :
    (decide (a ≠ d) && decide (a ≠ c) && decide (a ≠ b)) = decide (a ∉ [b, c, d]) := by
  by_cases h1 : a = b <;> by_cases h2 : a = c <;> by_cases h3 : a = d <;> simp [h1, h2, h3]

theorem cleanStep_eq_filter (p : Pool) :
    cleanStep p = p.filter (fun e => decide (Pool.firstSegment e.1 ∉ cleanedNamespaces)) := by
  unfold cleanStep Pool.removeNamespace
  rw [List.filter_filter, List.filter_filter]
  apply List.filter_congr
  intro x _
  exact decide_three _ _ _ _

theorem lookup_cleanStep (p : Pool) (x : Str) :
    (cleanStep p).lookup x =
      if Pool.firstSegment x ∈ cleanedNamespaces then none else p.lookup x := by
  rw [cleanStep_eq_filter,
    lookup_filter_key (fun k => decide (Pool.firstSegment k ∉ cleanedNamespaces))]
  by_cases h : Pool.firstSegment x ∈ cleanedNamespaces <;> simp [h]

theorem keys_cleanStep (p : Pool) :
    (cleanStep p).keys =
      p.keys.filter (fun k => decide (Pool.firstSegment k ∉ cleanedNamespaces)) := by
  rw [cleanStep_eq_filter,
    keys_filter_key (fun k => decide (Pool.firstSegment k ∉ cleanedNamespaces))]

theorem WF_cleanStep (p : Pool) (h : p.WF) : (cleanStep p).WF := by
  unfold Pool.WF at *
  rw [keys_cleanStep]
  exact h.filter _

theorem cleanStep_idem (p : Pool) : cleanStep (cleanStep p) = cleanStep p := by
  rw [cleanStep_eq_filter (cleanStep p), cleanStep_eq_filter p, List.filter_filter]
  apply List.filter_congr
  intro x _
  simp

/-- A key under a namespace without a dot has that namespace as its first segment. -/
theorem firstSegment_of_under (ns k : Str) (hns : '.' ∉ ns) (h : Pool.under ns k = true) :
    Pool.firstSegment k = ns := by
  unfold Pool.under at h
  rw [List.isPrefixOf_iff_prefix] at h
  obtain ⟨t, rfl⟩ := h
  unfold Pool.firstSegment
  rw [List.append_assoc, List.takeWhile_append_of_pos]
  · simp
  · intro a ha
    have : a ≠ '.' := fun e => hns (e ▸ ha)
    simpa using this

theorem firstSegment_of_under_mv (k : Str) (h : Pool.under metadataVersion k = true) :
    Pool.firstSegment k = "metadata".toList := by
  obtain ⟨s, rfl⟩ := (under_mv_iff k).1 h
  rfl

theorem not_cleaned_of_under_mv (k : Str) (h : Pool.under metadataVersion k = true) :
    Pool.firstSegment k ∉ cleanedNamespaces := by
  rw [firstSegment_of_under_mv k h]
  decide

theorem descriptorNames_cleanStep_mv (p : Pool) :
    (cleanStep p).descriptorNames metadataVersion = p.descriptorNames metadataVersion := by
  unfold Pool.descriptorNames
  rw [keys_cleanStep, List.filter_filter]
  apply List.filter_congr
  intro x _
  by_cases h : Pool.under metadataVersion x = true
  · simp [h, not_cleaned_of_under_mv x h]
  · simp [h]

theorem descriptorNames_eq_nil_of_firstSegment (p : Pool) (ns : Str) (hns : '.' ∉ ns)
    (h : ∀ k ∈ p.keys, Pool.firstSegment k ≠ ns) : p.descriptorNames ns = [] := by
  unfold Pool.descriptorNames
  rw [List.filter_eq_nil_iff]
  intro k hk hu
  exact h k hk (firstSegment_of_under ns k hns hu)

theorem firstSegment_of_mem_cleanStep (p : Pool) (k : Str) (h : k ∈ (cleanStep p).keys) :
    Pool.firstSegment k ∉ cleanedNamespaces := by
  rw [keys_cleanStep] at h
  exact of_decide_eq_true (List.mem_filter.1 h).2

theorem mem_keys_of_mem_cleanStep (p : Pool) (k : Str) (h : k ∈ (cleanStep p).keys) :
    k ∈ p.keys := by
  rw [keys_cleanStep] at h
  exact (List.mem_filter.1 h).1


/-! ## Lemmas on `process_single_file` -/

theorem preparePool_ok_iff {σ : Type} (c : Collaborators σ) (vs : Versions) (extractor : Algorithm)
    (descriptorsFilename format : Str) (options : Pool) (w : σ) (q : Pool) :
    preparePool c vs extractor descriptorsFilename format options w = Except.ok q ↔
      ∃ p0 p1 p3, c.yamlInput w descriptorsFilename format = Except.ok p0 ∧
        extractor p0 = Except.ok p1 ∧ versionRewriteLoop (cleanStep p1) = Except.ok p3 ∧
        c.mergeValues (setHighlevelVersions vs p3) options = Except.ok q := by
  unfold preparePool
  cases h0 : c.yamlInput w descriptorsFilename format with
  | error e => simp [liftE, bind, Except.bind]
  | ok p0 =>
    cases h1 : extractor p0 with
    | error e => simp [liftE, bind, Except.bind, h1]
    | ok p1 =>
      cases h3 : versionRewriteLoop (cleanStep p1) with
      | error e => simp [liftE, bind, Except.bind, h1, h3]
      | ok p3 =>
        cases h4 : c.mergeValues (setHighlevelVersions vs p3) options with
        | error e => simp [liftE, bind, Except.bind, h1, h3, h4]
        | ok q' => simp [liftE, bind, Except.bind, h1, h3, h4]

theorem lookup_setHighlevelVersions (vs : Versions) (p : Pool) (x : Str) :
    (setHighlevelVersions vs p).lookup x =
      if mvDot ++ "highlevel.gaia_git_sha".toList = x then
        some (Value.string vs.gaia2_version_git_sha)
      else if mvDot ++ "highlevel.gaia".toList = x then some (Value.string vs.gaia2_version)
      else if mvDot ++ "highlevel.extractor".toList = x then
        some (Value.string vs.MUSIC_EXTRACTOR_VERSION)
      else if mvDot ++ "highlevel.essentia_git_sha".toList = x then
        some (Value.string vs.essentia_version_git_sha)
      else if mvDot ++ "highlevel.essentia".toList = x then
        some (Value.string vs.essentia_version)
      else p.lookup x := by
  simp only [setHighlevelVersions, Pool.lookup_set]
  rfl

theorem mem_keys_setHighlevelVersions (vs : Versions) (p : Pool) (x : Str) :
    x ∈ (setHighlevelVersions vs p).keys ↔
      (∃ s ∈ highlevelSuffixes, mvDot ++ s = x) ∨ x ∈ p.keys := by
  simp only [setHighlevelVersions, Pool.mem_keys_set]
  constructor
  · rintro (h | h | h | h | h | h)
    · exact Or.inl ⟨"highlevel.gaia_git_sha".toList, by decide, h.symm⟩
    · exact Or.inl ⟨"highlevel.gaia".toList, by decide, h.symm⟩
    · exact Or.inl ⟨"highlevel.extractor".toList, by decide, h.symm⟩
    · exact Or.inl ⟨"highlevel.essentia_git_sha".toList, by decide, h.symm⟩
    · exact Or.inl ⟨"highlevel.essentia".toList, by decide, h.symm⟩
    · exact Or.inr h
  · rintro (⟨s, hs, rfl⟩ | h)
    · simp only [highlevelSuffixes, List.mem_cons, List.mem_singleton, List.not_mem_nil,
        or_false] at hs
      rcases hs with rfl | rfl | rfl | rfl | rfl
      · right; right; right; right; left; rfl
      · right; right; right; left; rfl
      · right; right; left; rfl
      · right; left; rfl
      · left; rfl
    · right; right; right; right; right; exact h

theorem WF_setHighlevelVersions (vs : Versions) (p : Pool) (h : p.WF) :
    (setHighlevelVersions vs p).WF := by
  unfold setHighlevelVersions
  exact Pool.WF_set _ _ _ (Pool.WF_set _ _ _ (Pool.WF_set _ _ _ (Pool.WF_set _ _ _
    (Pool.WF_set _ _ _ h))))

theorem firstSegment_of_mem_rewriteLoop (p p' : Pool) (h : versionRewriteLoop p = Except.ok p')
    (hp : ∀ k ∈ p.keys, Pool.firstSegment k ∉ cleanedNamespaces) :
    ∀ k ∈ p'.keys, Pool.firstSegment k ∉ cleanedNamespaces := by
  intro k hk
  rcases rewriteLoop_keys_sub k _ p p' (fun a ha => under_of_mem_descriptorNames p _ a ha) h hk
    with ⟨h1, _⟩ | h1
  · exact hp k h1
  · obtain ⟨a, _, rfl⟩ := List.mem_map.1 h1
    exact not_cleaned_of_under_mv _ (under_relocated a)

theorem under_mvDot (s : Str) : Pool.under metadataVersion (mvDot ++ s) = true :=
  (under_mv_iff _).2 ⟨s, rfl⟩

/-- The loop never fails with the `std::out_of_range` of `substr`: every key it visits lies under
`metadata.version`, hence has at least 17 characters. -/
theorem rewriteLoop_error_essentia : ∀ (ks : List Str) (p : Pool) (e : Exception),
    (∀ k ∈ ks, Pool.under metadataVersion k = true) → rewriteLoop ks p = Except.error e →
    ∃ e', e = Exception.essentia e' := by
  intro ks
  induction ks with
  | nil => intro p e _ h; cases h
  | cons k ks ih =>
    intro p e hu h
    have hk := hu k (List.mem_cons_self _ _)
    rw [rewriteLoop_cons] at h
    cases h1 : rewriteKey p k with
    | ok p1 =>
      rw [h1] at h
      exact ih p1 e (fun a ha => hu a (List.mem_cons_of_mem _ ha)) h
    | error e1 =>
      rw [h1] at h
      have h2 : e1 = e := by injection h
      subst h2
      simp only [rewriteKey, newKey_of_under k hk] at h1
      cases h3 : p.valueString k with
      | ok s => simp [h3, liftE, bind, Except.bind, pure, Except.pure] at h1
      | error e3 =>
        simp [h3, liftE, bind, Except.bind] at h1
        exact ⟨e3, h1.symm⟩

theorem preparePool_error_essentia {σ : Type} (c : Collaborators σ) (vs : Versions)
    (extractor : Algorithm) (descriptorsFilename format : Str) (options : Pool) (w : σ)
    (e : Exception)
    (h : preparePool c vs extractor descriptorsFilename format options w = Except.error e) :
    ∃ e', e = Exception.essentia e' := by
  unfold preparePool at h
  cases h0 : c.yamlInput w descriptorsFilename format with
  | error e0 =>
    simp [liftE, bind, Except.bind, h0] at h
    exact ⟨e0, h.symm⟩
  | ok p0 =>
    cases h1 : extractor p0 with
    | error e1 =>
      simp [liftE, bind, Except.bind, h0, h1] at h
      exact ⟨e1, h.symm⟩
    | ok p1 =>
      cases h3 : versionRewriteLoop (cleanStep p1) with
      | error e3 =>
        simp [liftE, bind, Except.bind, h0, h1, h3] at h
        subst h
        exact rewriteLoop_error_essentia _ _ _
          (fun a ha => under_of_mem_descriptorNames _ _ a ha) h3
      | ok p3 =>
        cases h4 : c.mergeValues (setHighlevelVersions vs p3) options with
        | error e4 =>
          simp [liftE, bind, Except.bind, h0, h1, h3, h4] at h
          exact ⟨e4, h.symm⟩
        | ok q' => simp [liftE, bind, Except.bind, h0, h1, h3, h4] at h

/-- An exception that leaves `process_single_file` is an `EssentiaException`. -/
theorem process_single_file_error_essentia {σ : Type} (c : Collaborators σ) (vs : Versions)
    (extractor : Algorithm) (descriptorsFilename outputFilename format : Str) (options : Pool)
    (w w' : σ) (e : Exception)
    (h : process_single_file c vs extractor descriptorsFilename outputFilename format options w =
      (w', Except.error e)) : ∃ e', e = Exception.essentia e' := by
  unfold process_single_file at h
  cases h0 : preparePool c vs extractor descriptorsFilename format options w with
  | error e0 =>
    rw [h0] at h
    simp only [Prod.mk.injEq, Except.error.injEq] at h
    exact h.2 ▸ preparePool_error_essentia c vs extractor _ _ _ w e0 h0
  | ok q =>
    rw [h0] at h
    simp only at h
    rcases h1 : c.outputToFile w q outputFilename options with ⟨w1, r⟩
    rw [h1] at h
    cases r with
    | error e1 =>
      simp only [Prod.mk.injEq, Except.error.injEq] at h
      exact ⟨e1, h.2.symm⟩
    | ok u => simp at h

/-! ## Further lemmas on the rewrite step -/

theorem exists_longest : ∀ (l : List Str), l ≠ [] → ∃ k ∈ l, ∀ k' ∈ l, k'.length ≤ k.length := by
  intro l
  induction l with
  | nil => intro h; exact absurd rfl h
  | cons a l ih =>
    intro _
    by_cases hl : l = []
    · subst hl
      exact ⟨a, List.mem_cons_self _ _, by simp⟩
    · obtain ⟨k, hk, hmax⟩ := ih hl
      by_cases hak : k.length ≤ a.length
      · refine ⟨a, List.mem_cons_self _ _, ?_⟩
        intro k' hk'
        rcases List.mem_cons.1 hk' with rfl | h
        · exact le_refl _
        · exact le_trans (hmax k' h) hak
      · refine ⟨k, List.mem_cons_of_mem _ hk, ?_⟩
        intro k' hk'
        rcases List.mem_cons.1 hk' with rfl | h
        · omega
        · exact hmax k' h

theorem versionRewriteStep_ok_iff (vs : Versions) (p p1 : Pool) :
    versionRewriteStep vs p = Except.ok p1 ↔
      ∃ p3, versionRewriteLoop p = Except.ok p3 ∧ p1 = setHighlevelVersions vs p3 := by
  unfold versionRewriteStep
  cases h : versionRewriteLoop p with
  | error e => simp [bind, Except.bind]
  | ok p3 =>
    simp only [bind, Except.bind, pure, Except.pure, Except.ok.injEq]
    constructor
    · intro h1; exact ⟨p3, rfl, h1.symm⟩
    · rintro ⟨p3', h1, h2⟩; rw [h2, h1]

/-- After the loop over all keys under `metadata.version` every such key holds a string. -/
theorem versionRewriteLoop_strings (p p' : Pool) (h : versionRewriteLoop p = Except.ok p') :
    ∀ x, Pool.under metadataVersion x = true → x ∈ p'.keys →
      ∃ s, p'.lookup x = some (Value.string s) := by
  refine rewriteLoop_strings _ p p' (fun a ha => under_of_mem_descriptorNames p _ a ha) h ?_
  intro x hx hxk hxn
  exact absurd ((mem_descriptorNames p _ _).2 ⟨hxk, hx⟩) hxn

/-- The new name of a key visited by the loop is a key of the pool after the loop, unless it is
itself visited later. -/
theorem rewriteLoop_mem_relocated (p p' : Pool) (K : Str) (ks : List Str)
    (hu : ∀ k ∈ ks, Pool.under metadataVersion k = true) (hK : K ∈ ks)
    (hr : relocated K ∉ ks) (h : rewriteLoop ks p = Except.ok p') : relocated K ∈ p'.keys := by
  obtain ⟨pre, post, rfl⟩ := List.append_of_mem hK
  rw [rewriteLoop_append] at h
  obtain ⟨p1, _, h2⟩ := bind_eq_ok _ _ _ h
  have huK : Pool.under metadataVersion K = true :=
    hu _ (List.mem_append_right _ (List.mem_cons_self _ _))
  obtain ⟨t, _, h3⟩ := (rewriteLoop_cons_ok _ post p1 p' huK).1 h2
  refine rewriteLoop_keys_mono _ post _ p'
    (fun k hk => hu k (List.mem_append_right _ (List.mem_cons_of_mem _ hk))) h3 ?_ ?_
  · rw [mem_keys_step]
    exact ⟨relocated_ne K huK, Or.inl rfl⟩
  · intro hm
    exact hr (List.mem_append_right _ (List.mem_cons_of_mem _ hm))

/-- The rewrite step succeeds on its own result, and changes it. -/
theorem versionRewriteStep_twice (vs : Versions) (p p1 : Pool) (hwf : p.WF)
    (h : versionRewriteStep vs p = Except.ok p1) :
    ∃ p2, versionRewriteStep vs p1 = Except.ok p2 ∧ p2 ≠ p1 := by
  obtain ⟨p3, h3, rfl⟩ := (versionRewriteStep_ok_iff vs p _).1 h
  have hwf3 : p3.WF :=
    rewriteLoop_WF _ p p3 (fun a ha => under_of_mem_descriptorNames p _ a ha) h3 hwf
  have hwf1 := WF_setHighlevelVersions vs p3 hwf3
  have hu : ∀ k ∈ (setHighlevelVersions vs p3).descriptorNames metadataVersion,
      Pool.under metadataVersion k = true :=
    fun k hk => under_of_mem_descriptorNames _ _ k hk
  have hstr : ∀ k ∈ (setHighlevelVersions vs p3).descriptorNames metadataVersion,
      ∃ s, (setHighlevelVersions vs p3).lookup k = some (Value.string s) := by
    intro k hk
    obtain ⟨hk1, hk2⟩ := (mem_descriptorNames _ _ _).1 hk
    rw [lookup_setHighlevelVersions]
    split_ifs
    · exact ⟨_, rfl⟩
    · exact ⟨_, rfl⟩
    · exact ⟨_, rfl⟩
    · exact ⟨_, rfl⟩
    · exact ⟨_, rfl⟩
    · rename_i n1 n2 n3 n4 n5
      rcases (mem_keys_setHighlevelVersions vs p3 k).1 hk1 with ⟨s, hs, rfl⟩ | hk3
      · simp only [highlevelSuffixes, List.mem_cons, List.mem_singleton, List.not_mem_nil,
          or_false] at hs
        rcases hs with rfl | rfl | rfl | rfl | rfl
        · exact absurd rfl n5
        · exact absurd rfl n4
        · exact absurd rfl n3
        · exact absurd rfl n2
        · exact absurd rfl n1
      · exact versionRewriteLoop_strings p p3 h3 k hk2 hk3
  obtain ⟨p4, h4⟩ := rewriteLoop_succeeds _ (setHighlevelVersions vs p3) hu
    (nodup_descriptorNames _ _ hwf1) hstr
  refine ⟨setHighlevelVersions vs p4,
    (versionRewriteStep_ok_iff vs _ _).2 ⟨p4, h4, rfl⟩, ?_⟩
  have hne : (setHighlevelVersions vs p3).descriptorNames metadataVersion ≠ [] := by
    intro e
    have : mvDot ++ "highlevel.essentia".toList ∈
        (setHighlevelVersions vs p3).descriptorNames metadataVersion :=
      (mem_descriptorNames _ _ _).2 ⟨(mem_keys_setHighlevelVersions vs p3 _).2
        (Or.inl ⟨_, by decide, rfl⟩), under_mvDot _⟩
    rw [e] at this
    exact List.not_mem_nil _ this
  obtain ⟨K, hK, hmax⟩ := exists_longest _ hne
  have hr : relocated K ∉ (setHighlevelVersions vs p3).keys := by
    intro hm
    have h5 := hmax _ ((mem_descriptorNames _ _ _).2 ⟨hm, under_relocated K⟩)
    rw [length_relocated K (hu K hK)] at h5
    omega
  have hr' : relocated K ∉ (setHighlevelVersions vs p3).descriptorNames metadataVersion :=
    fun hm => hr ((mem_descriptorNames _ _ _).1 hm).1
  have h6 : relocated K ∈ (setHighlevelVersions vs p4).keys :=
    (mem_keys_setHighlevelVersions vs p4 _).2
      (Or.inr (rewriteLoop_mem_relocated _ p4 K _ hu hK hr' h4))
  intro e
  rw [e] at h6
  exact hr h6

/-- The loop fails with a type mismatch when it visits a key that holds a value of another type
and that no earlier visit has overwritten. -/
theorem rewriteLoop_typeMismatch (p : Pool) (K : Str) (val : Value) (pre post : List Str)
    (hu : ∀ k ∈ pre ++ K :: post, Pool.under metadataVersion k = true)
    (hn : (pre ++ K :: post).Nodup) (hmem : ∀ k ∈ pre ++ K :: post, k ∈ p.keys)
    (hval : p.lookup K = some val) (hns : val.isString = false)
    (hpre : ∀ k' ∈ pre, relocated k' ≠ K) :
    ∃ k, rewriteLoop (pre ++ K :: post) p =
      Except.error (Exception.essentia (EssentiaException.typeMismatch k)) := by
  have hupre : ∀ k ∈ pre, Pool.under metadataVersion k = true :=
    fun k hk => hu k (List.mem_append_left _ hk)
  have huK : Pool.under metadataVersion K = true :=
    hu _ (List.mem_append_right _ (List.mem_cons_self _ _))
  rw [List.nodup_append] at hn
  obtain ⟨hn1, _, hn3⟩ := hn
  rw [rewriteLoop_append]
  rcases rewriteLoop_ok_or_typeMismatch pre p hupre hn1
      (fun k hk => hmem k (List.mem_append_left _ hk)) with ⟨p1, h1⟩ | ⟨k, h1⟩
  · refine ⟨K, ?_⟩
    have hf := rewriteLoop_frame K pre p p1 hupre h1
      (fun hm => hn3 hm (List.mem_cons_self _ _))
      (by
        intro hm
        obtain ⟨k', hk', hk'2⟩ := List.mem_map.1 hm
        exact hpre k' hk' hk'2)
    rw [h1]
    show rewriteLoop (K :: post) p1 = _
    rw [rewriteLoop_cons, rewriteKey_not_string p1 K val huK (hf.trans hval) hns]
    rfl
  · refine ⟨k, ?_⟩
    rw [h1]
    rfl

theorem descriptorNames_cleanStep_cleaned (p : Pool) (ns : Str) (h : ns ∈ cleanedNamespaces) :
    (cleanStep p).descriptorNames ns = [] := by
  have hdot : '.' ∉ ns := by
    simp only [cleanedNamespaces, List.mem_cons, List.mem_singleton, List.not_mem_nil,
      or_false] at h
    rcases h with rfl | rfl | rfl <;> decide
  apply descriptorNames_eq_nil_of_firstSegment _ ns hdot
  intro k hk e
  exact firstSegment_of_mem_cleanStep p k hk (e ▸ h)

/-- No key of the pool handed to the serializer has one of the three cleaned namespaces as its
first segment, when the merge adds no key. -/
theorem firstSegment_of_mem_preparePool {σ : Type} (c : Collaborators σ) (vs : Versions)
    (extractor : Algorithm) (descriptorsFilename format : Str) (options : Pool) (w : σ) (q : Pool)
    (hmerge : ∀ q', c.mergeValues q' options = Except.ok q')
    (h : preparePool c vs extractor descriptorsFilename format options w = Except.ok q) :
    ∀ k ∈ q.keys, Pool.firstSegment k ∉ cleanedNamespaces := by
  obtain ⟨p0, p1, p3, _, _, h3, h4⟩ := (preparePool_ok_iff c vs extractor _ _ _ w q).1 h
  rw [hmerge] at h4
  injection h4 with h4
  subst h4
  intro k hk
  rcases (mem_keys_setHighlevelVersions vs p3 k).1 hk with ⟨s, _, rfl⟩ | hk3
  · exact not_cleaned_of_under_mv _ (under_mvDot s)
  · exact firstSegment_of_mem_rewriteLoop _ p3 h3
      (fun a ha => firstSegment_of_mem_cleanStep p1 a ha) k hk3

/-! ## Lemmas on `main` -/

theorem callsOf_append (t t' : List Event) : callsOf (t ++ t') = callsOf t ++ callsOf t' := by
  induction t with
  | nil => rfl
  | cons ev rest ih => cases ev <;> simp [callsOf, ih]

/-- The batch loop: no exception leaves it, the calls are the pairs, and the diagnostics match the
failed calls. -/
theorem batchLoop_isolation {σ : Type} (c : Collaborators σ) (vs : Versions)
    (extractor : Algorithm) (format : Str) (options : Pool) (pairs : List (Str × Str)) (w : σ) :
    (batchLoop c vs extractor format options pairs w).2.2 = none ∧
    callsOf (batchLoop c vs extractor format options pairs w).2.1 = pairs ∧
    wellPaired (batchLoop c vs extractor format options pairs w).2.1 = true ∧
    diagnosticsOf (batchLoop c vs extractor format options pairs w).2.1 =
      failuresOf (batchLoop c vs extractor format options pairs w).2.1 ∧
    (diagnosticsOf (batchLoop c vs extractor format options pairs w).2.1).length =
      (failuresOf (batchLoop c vs extractor format options pairs w).2.1).length := by
  induction pairs generalizing w with
  | nil => simp [batchLoop, callsOf, wellPaired, diagnosticsOf, failuresOf]
  | cons pr rest ih =>
    obtain ⟨i, o⟩ := pr
    rcases hp : process_single_file c vs extractor i o format options w with ⟨w1, r⟩
    cases r with
    | ok u =>
      obtain ⟨h1, h2, h3, h4, h5⟩ := ih w1
      simp only [batchLoop, hp, callsOf, wellPaired, diagnosticsOf, failuresOf, h1, h2, h3, h4]
      simp
    | error e =>
      obtain ⟨e', rfl⟩ := process_single_file_error_essentia c vs extractor i o format options
        w w1 e hp
      obtain ⟨h1, h2, h3, h4, h5⟩ := ih w1
      simp only [batchLoop, hp, callsOf, wellPaired, diagnosticsOf, failuresOf, h1, h2, h3, h4]
      simp

theorem collectPairs_eq (argv : List Str) : ∀ (m i : Nat) (ins outs : List Str),
    collectPairs argv (i + 2 * m) i ins outs =
      (ins ++ (List.range m).map (fun j => argv.getD (i + 2 * j) []),
        outs ++ (List.range m).map (fun j => argv.getD (i + 2 * j + 1) [])) := by
  intro m
  induction m with
  | zero =>
    intro i ins outs
    rw [collectPairs]
    simp
  | succ m ih =>
    intro i ins outs
    rw [collectPairs]
    have h1 : i < i + 2 * (m + 1) := by omega
    have h2 : i + 2 * (m + 1) = (i + 2) + 2 * m := by omega
    rw [if_pos h1, h2, ih, List.range_succ_eq_map, List.map_cons, List.map_map, List.map_cons,
      List.map_map]
    simp only [List.append_assoc, List.singleton_append, Nat.mul_zero, Nat.add_zero]
    congr 3
    · apply List.map_congr_left
      intro j _
      simp only [Function.comp]
      congr 1
      omega
    · apply List.map_congr_left
      intro j _
      simp only [Function.comp]
      congr 1
      omega

/-- The exit status of `main` in all runs: `1` for a wrong argument count, for a failed start-up,
for a format string that is neither `json` nor `yaml`, and for a failed shutdown, each time without
a call of `process_single_file` before the batch loop is reached; `0` when the shutdown succeeds;
and when the options hold no string under `highlevel.inputFormat`, the exception of line 137
leaves `main`. -/
theorem main_exit_status {σ : Type} (c : Collaborators σ) (vs : Versions) (argv : List Str)
    (w : σ) :
    (argv.length < 3 →
      (main c vs argv w).outcome = Outcome.exit 1 ∧ callsOf (main c vs argv w).trace = []) ∧
    (3 ≤ argv.length →
      (∀ e, startup c (parseArguments argv).1 w = Except.error e →
        (main c vs argv w).outcome = Outcome.exit 1 ∧ callsOf (main c vs argv w).trace = []) ∧
      (∀ options extractor, startup c (parseArguments argv).1 w = Except.ok (options, extractor) →
        (∀ e, options.valueString "highlevel.inputFormat".toList = Except.error e →
          (main c vs argv w).outcome = Outcome.terminate (Exception.essentia e)) ∧
        (∀ format, options.valueString "highlevel.inputFormat".toList = Except.ok format →
          ((format ≠ "json".toList ∧ format ≠ "yaml".toList) →
            (main c vs argv w).outcome = Outcome.exit 1 ∧
              callsOf (main c vs argv w).trace = []) ∧
          ((format = "json".toList ∨ format = "yaml".toList) →
            callsOf (main c vs argv w).trace =
              (parseArguments argv).2.1.zip (parseArguments argv).2.2 ∧
            (∀ e, c.shutdown (main c vs argv w).world = Except.error e →
              (main c vs argv w).outcome = Outcome.exit 1) ∧
            (∀ u, c.shutdown (main c vs argv w).world = Except.ok u →
              (main c vs argv w).outcome = Outcome.exit 0))))) := by
  constructor
  · intro h
    simp [main, h, callsOf]
  · intro h
    have h' : ¬ argv.length < 3 := by omega
    rcases hpa : parseArguments argv with ⟨profile, ins, outs⟩
    constructor
    · intro e he
      simp [main, h', hpa, he, callsOf]
    · intro options extractor hs
      simp only at hs
      constructor
      · intro e he
        simp only [main, h', hpa, hs, he, if_false]
      · intro format hf
        constructor
        · intro hfmt
          simp only [main, h', hpa, hs, hf, if_false]
          rw [if_pos hfmt]
          exact ⟨rfl, rfl⟩
        · intro hfmt
          have hfmt' : ¬ (format ≠ "json".toList ∧ format ≠ "yaml".toList) := by
            intro hc
            rcases hfmt with e | e
            · exact hc.1 e
            · exact hc.2 e
          obtain ⟨hb1, hb2, _⟩ := batchLoop_isolation c vs extractor format options
            (ins.zip outs) w
          rcases hb : batchLoop c vs extractor format options (ins.zip outs) w with ⟨w1, tr, ex⟩
          rw [hb] at hb1 hb2
          simp only at hb1 hb2
          subst hb1
          have hm : main c vs argv w =
              (match c.shutdown w1 with
              | Except.error e => ⟨Outcome.exit 1, w1, tr ++ [Event.cout e]⟩
              | Except.ok _ => ⟨Outcome.exit 0, w1, tr⟩) := by
            simp only [main, h', hpa, hs, hf, if_false]
            rw [if_neg hfmt', hb]
          rw [hm]
          cases hsd : c.shutdown w1 with
          | error e =>
            refine ⟨?_, ?_, ?_⟩
            · simp only
              rw [callsOf_append, hb2]
              simp [callsOf]
            · intro _ _; rfl
            · intro u hu; simp only at hu; rw [hsd] at hu; cases hu
          | ok u =>
            refine ⟨?_, ?_, ?_⟩
            · exact hb2
            · intro e he; simp only at he; rw [hsd] at he; cases he
            · intro _ _; rfl

/-- The world after the batch loop is the world after the calls of `process_single_file` on all
pairs in turn. -/
theorem batchLoop_world {σ : Type} (c : Collaborators σ) (vs : Versions)
    (extractor : Algorithm) (format : Str) (options : Pool) (pairs : List (Str × Str)) (w : σ) :
    (batchLoop c vs extractor format options pairs w).1 =
      worldAfter c vs extractor format options pairs w := by
  induction pairs generalizing w with
  | nil => rfl
  | cons pr rest ih =>
    obtain ⟨i, o⟩ := pr
    rcases hp : process_single_file c vs extractor i o format options w with ⟨w1, r⟩
    cases r with
    | ok u => simp only [batchLoop, worldAfter, hp, ih]
    | error e =>
      obtain ⟨e', rfl⟩ := process_single_file_error_essentia c vs extractor i o format options
        w w1 e hp
      simp only [batchLoop, worldAfter, hp, ih]

/-- The calls recorded by the batch loop are the calls of `process_single_file` on all pairs in
turn, with what they really throw, and the diagnostics are the failing pairs. -/
theorem batchLoop_outcomes {σ : Type} (c : Collaborators σ) (vs : Versions)
    (extractor : Algorithm) (format : Str) (options : Pool) (pairs : List (Str × Str)) (w : σ) :
    callResultsOf (batchLoop c vs extractor format options pairs w).2.1 =
        outcomes c vs extractor format options pairs w ∧
      diagnosticsOf (batchLoop c vs extractor format options pairs w).2.1 =
        failingPairs c vs extractor format options pairs w := by
  induction pairs generalizing w with
  | nil => exact ⟨rfl, rfl⟩
  | cons pr rest ih =>
    obtain ⟨i, o⟩ := pr
    rcases hp : process_single_file c vs extractor i o format options w with ⟨w1, r⟩
    cases r with
    | ok u =>
      obtain ⟨h1, h2⟩ := ih w1
      unfold failingPairs at h2 ⊢
      simp only [batchLoop, outcomes, hp, callResultsOf, diagnosticsOf, h1, h2]
      simp
    | error e =>
      obtain ⟨e', rfl⟩ := process_single_file_error_essentia c vs extractor i o format options
        w w1 e hp
      obtain ⟨h1, h2⟩ := ih w1
      unfold failingPairs at h2 ⊢
      simp only [batchLoop, outcomes, hp, callResultsOf, diagnosticsOf, h1, h2]
      simp

/-- The batch loop over a list of pairs in two parts is the loop over the first part followed by
the loop over the second part, from the world that the first part leaves. -/
theorem batchLoop_append {σ : Type} (c : Collaborators σ) (vs : Versions)
    (extractor : Algorithm) (format : Str) (options : Pool) (pre post : List (Str × Str))
    (w : σ) :
    batchLoop c vs extractor format options (pre ++ post) w =
      ((batchLoop c vs extractor format options post
          (batchLoop c vs extractor format options pre w).1).1,
        (batchLoop c vs extractor format options pre w).2.1 ++
          (batchLoop c vs extractor format options post
            (batchLoop c vs extractor format options pre w).1).2.1,
        (batchLoop c vs extractor format options post
          (batchLoop c vs extractor format options pre w).1).2.2) := by
  induction pre generalizing w with
  | nil => rfl
  | cons pr rest ih =>
    obtain ⟨i, o⟩ := pr
    rcases hp : process_single_file c vs extractor i o format options w with ⟨w1, r⟩
    cases r with
    | ok u =>
      simp only [List.cons_append, batchLoop, hp]
      rw [show rest.append post = rest ++ post from rfl, ih w1]
    | error e =>
      obtain ⟨e', rfl⟩ := process_single_file_error_essentia c vs extractor i o format options
        w w1 e hp
      simp only [List.cons_append, batchLoop, hp]
      rw [show rest.append post = rest ++ post from rfl, ih w1]

/-! ## The claims -/

/-- C1, as stated, fails: in `collisionPool` the key `metadata.version.a` holds the string `1`
when the rewrite loop starts, the loop completes, and afterwards the key
`metadata.version.lowlevel.a` holds nothing: the only key left is
`metadata.version.lowlevel.lowlevel.a`. -/
theorem C1_counterexample :
    collisionPool.WF ∧
    collisionPool.lookup (mvDot ++ "a".toList) = some (Value.string "1".toList) ∧
    versionRewriteLoop collisionPool =
      Except.ok [("metadata.version.lowlevel.lowlevel.a".toList, Value.string "1".toList)] ∧
    ¬ ∃ p', versionRewriteLoop collisionPool = Except.ok p' ∧
        p'.lookup (mvLow ++ "a".toList) = some (Value.string "1".toList) := by
  refine ⟨by decide, rfl, rfl, ?_⟩
  rintro ⟨p', h1, h2⟩
  have h3 : versionRewriteLoop collisionPool =
      Except.ok [("metadata.version.lowlevel.lowlevel.a".toList, Value.string "1".toList)] := rfl
  rw [h3] at h1
  injection h1 with h1
  subst h1
  revert h2
  decide

/-- C1, amended: in a pool with unique keys let the key `K = "metadata.version." + s` hold the
string `v` when the rewrite loop starts, let `K` not be the new name of a key enumerated before
it, and let the new name of `K` not be a key enumerated after it. Then whenever the loop
completes, the key `"metadata.version.lowlevel." + s` holds `v`; and the loop does complete when
every key under `metadata.version` holds a string. -/
theorem C1_rewrite_preserves_value (p : Pool) (s v : Str) (pre post : List Str) (hwf : p.WF)
    (hK : p.lookup (mvDot ++ s) = some (Value.string v))
    (hsplit : p.descriptorNames metadataVersion = pre ++ (mvDot ++ s) :: post)
    (hpre : ∀ k' ∈ pre, relocated k' ≠ mvDot ++ s)
    (hpost : mvLow ++ s ∉ post) :
    (∀ p', versionRewriteLoop p = Except.ok p' →
        p'.lookup (mvLow ++ s) = some (Value.string v)) ∧
      ((∀ k ∈ p.descriptorNames metadataVersion, p.holdsString k = true) →
        ∃ p', versionRewriteLoop p = Except.ok p') := by
  have hu : ∀ k ∈ p.descriptorNames metadataVersion, Pool.under metadataVersion k = true :=
    fun k hk => under_of_mem_descriptorNames p _ k hk
  have hn := nodup_descriptorNames p metadataVersion hwf
  constructor
  · intro p' h
    unfold versionRewriteLoop at h
    rw [hsplit] at hu hn h
    rw [← relocated_mvDot]
    exact rewriteLoop_value p p' _ v pre post hu hn hK hpre
      (by rw [relocated_mvDot]; exact hpost) h
  · intro hs
    exact rewriteLoop_succeeds _ p hu hn (fun k hk => (holdsString_iff p k).1 (hs k hk))

/-- C1, amended, at the key `metadata.version.extractor` of `versionPool`, which is enumerated
after `metadata.version.essentia`: the loop completes and `metadata.version.lowlevel.extractor`
holds the value. -/
theorem C1_rewrite_preserves_value_witness :
    versionPool.WF ∧
    versionPool.lookup (mvDot ++ "extractor".toList) = some (Value.string "music 1.0".toList) ∧
    versionPool.descriptorNames metadataVersion =
      ["metadata.version.essentia".toList] ++ (mvDot ++ "extractor".toList) :: [] ∧
    (∀ k' ∈ ["metadata.version.essentia".toList], relocated k' ≠ mvDot ++ "extractor".toList) ∧
    ∃ p', versionRewriteLoop versionPool = Except.ok p' ∧
      p'.lookup (mvLow ++ "extractor".toList) = some (Value.string "music 1.0".toList) :=
  have h := C1_rewrite_preserves_value versionPool "extractor".toList "music 1.0".toList
    ["metadata.version.essentia".toList] [] (by decide) (by decide) (by decide) (by decide)
    (by decide)
  ⟨by decide, by decide, by decide, by decide,
    (h.2 (by decide)).elim (fun p' hp' => ⟨p', hp', h.1 p' hp'⟩)⟩

/-- C2, as stated, fails: in `collisionPool` two keys lie under `metadata.version` before the
loop and one after it, and the new name `metadata.version.lowlevel.a` of the first key is not
present after the loop. -/
theorem C2_counterexample :
    collisionPool.WF ∧
    ∃ p', versionRewriteLoop collisionPool = Except.ok p' ∧
      (collisionPool.descriptorNames metadataVersion).length = 2 ∧
      (p'.descriptorNames metadataVersion).length = 1 ∧
      mvDot ++ "a".toList ∈ collisionPool.keys ∧ mvLow ++ "a".toList ∉ p'.keys :=
  ⟨by decide, _, rfl, by decide, by decide, by decide, by decide⟩

/-- C2, amended: in a pool with unique keys whose keys under `metadata.version` all hold strings
and in which no key `"metadata.version.lowlevel." + s` exists beside a key
`"metadata.version." + s`, the rewrite loop completes and is a bijection on the keys under
`metadata.version`: the keys after the loop are the new names of the keys before it, in the same
order; each new name holds the value of its original key; distinct original keys give distinct
new names; the number of keys under `metadata.version` is unchanged; and no original key is
present after the loop. -/
theorem C2_rewrite_bijective (p : Pool) (hwf : p.WF)
    (hstr : ∀ k ∈ p.descriptorNames metadataVersion, p.holdsString k = true)
    (hfresh : ∀ s, mvDot ++ s ∈ p.keys → mvLow ++ s ∉ p.keys) :
    ∃ p', versionRewriteLoop p = Except.ok p' ∧
      p'.descriptorNames metadataVersion = (p.descriptorNames metadataVersion).map relocated ∧
      (∀ s v, p.lookup (mvDot ++ s) = some v → p'.lookup (mvLow ++ s) = some v) ∧
      (∀ x ∈ p'.descriptorNames metadataVersion, ∃ s, x = mvLow ++ s ∧ mvDot ++ s ∈ p.keys) ∧
      (∀ s t, mvLow ++ s = mvLow ++ t → mvDot ++ s = mvDot ++ t) ∧
      (p'.descriptorNames metadataVersion).length =
        (p.descriptorNames metadataVersion).length ∧
      (∀ s, mvDot ++ s ∈ p.keys → mvDot ++ s ∉ p'.keys) := by
  have hu : ∀ k ∈ p.descriptorNames metadataVersion, Pool.under metadataVersion k = true :=
    fun k hk => under_of_mem_descriptorNames p _ k hk
  have hn := nodup_descriptorNames p metadataVersion hwf
  have hf : ∀ k ∈ p.descriptorNames metadataVersion, relocated k ∉ p.keys := by
    intro k hk
    obtain ⟨s, rfl⟩ := (under_mv_iff k).1 (hu k hk)
    rw [relocated_mvDot]
    exact hfresh s ((mem_descriptorNames p _ _).1 hk).1
  obtain ⟨p', hp', hd⟩ := versionRewriteLoop_fresh p hwf hstr hf
  refine ⟨p', hp', hd, ?_, ?_, ?_, ?_, ?_⟩
  · intro s v hv
    have hmem : mvDot ++ s ∈ p.descriptorNames metadataVersion :=
      (mem_descriptorNames p _ _).2 ⟨(Pool.mem_keys_iff p _).2 ⟨v, hv⟩, under_mvDot s⟩
    obtain ⟨t, ht⟩ := (holdsString_iff p _).1 (hstr _ hmem)
    obtain ⟨pre, post, hsplit⟩ := List.append_of_mem hmem
    rw [hv] at ht
    injection ht with ht
    subst ht
    have hmem' : ∀ k ∈ pre ++ (mvDot ++ s) :: post, k ∈ p.descriptorNames metadataVersion := by
      intro k hk; rw [hsplit]; exact hk
    unfold versionRewriteLoop at hp'
    rw [hsplit] at hp' hu hn
    rw [← relocated_mvDot]
    refine rewriteLoop_value p p' _ t pre post hu hn hv ?_ ?_ hp'
    · intro k' hk' e
      apply hf k' (hmem' k' (List.mem_append_left _ hk'))
      rw [e]
      exact (Pool.mem_keys_iff p _).2 ⟨_, hv⟩
    · intro hm
      have h1 := hmem' _ (List.mem_append_right _ (List.mem_cons_of_mem _ hm))
      exact hf _ (hmem' _ (List.mem_append_right _ (List.mem_cons_self _ _)))
        ((mem_descriptorNames p _ _).1 h1).1
  · intro x hx
    rw [hd] at hx
    obtain ⟨k, hk, rfl⟩ := List.mem_map.1 hx
    obtain ⟨s, rfl⟩ := (under_mv_iff k).1 (hu k hk)
    exact ⟨s, relocated_mvDot s, ((mem_descriptorNames p _ _).1 hk).1⟩
  · intro s t h
    rw [List.append_cancel_left h]
  · rw [hd, List.length_map]
  · intro s hs hs'
    have h1 : mvDot ++ s ∈ p'.descriptorNames metadataVersion :=
      (mem_descriptorNames p' _ _).2 ⟨hs', under_mvDot s⟩
    rw [hd] at h1
    obtain ⟨k, hk, hk2⟩ := List.mem_map.1 h1
    exact hf k hk (hk2 ▸ hs)

/-- C2, amended, at `versionPool`: the two version keys are relocated one to one. -/
theorem C2_rewrite_bijective_witness :
    versionPool.WF ∧
    ∃ p', versionRewriteLoop versionPool = Except.ok p' ∧
      p'.descriptorNames metadataVersion =
        (versionPool.descriptorNames metadataVersion).map relocated ∧
      (∀ s v, versionPool.lookup (mvDot ++ s) = some v → p'.lookup (mvLow ++ s) = some v) ∧
      (∀ x ∈ p'.descriptorNames metadataVersion,
        ∃ s, x = mvLow ++ s ∧ mvDot ++ s ∈ versionPool.keys) ∧
      (∀ s t, mvLow ++ s = mvLow ++ t → mvDot ++ s = mvDot ++ t) ∧
      (p'.descriptorNames metadataVersion).length =
        (versionPool.descriptorNames metadataVersion).length ∧
      (∀ s, mvDot ++ s ∈ versionPool.keys → mvDot ++ s ∉ p'.keys) :=
  ⟨by decide, C2_rewrite_bijective versionPool (by decide) (by decide) (by
    intro s hs
    have h1 : mvDot ++ s ∈ versionPool.descriptorNames metadataVersion :=
      (mem_descriptorNames versionPool _ _).2 ⟨hs, under_mvDot s⟩
    have h2 : versionPool.descriptorNames metadataVersion =
        [mvDot ++ "essentia".toList, mvDot ++ "extractor".toList] := by decide
    rw [h2] at h1
    simp only [List.mem_cons, List.mem_singleton, List.not_mem_nil, or_false] at h1
    rcases h1 with h1 | h1
    · rw [List.append_cancel_left h1]; decide
    · rw [List.append_cancel_left h1]; decide)⟩

/-- C3: after the three `removeNamespace` calls the enumeration of each of the namespaces
`lowlevel`, `rhythm` and `tonal` is empty and every key whose first segment is none of the three
holds what it held; and when the merge adds no key (empty options), the pool handed to the
serializer has no key under `lowlevel`, `rhythm` or `tonal`, whatever the classifier does. -/
theorem C3_clean_step {σ : Type} (c : Collaborators σ) (vs : Versions) (extractor : Algorithm)
    (descriptorsFilename format : Str) (options : Pool) (w : σ) (p : Pool) :
    ((cleanStep p).descriptorNames "lowlevel".toList = [] ∧
      (cleanStep p).descriptorNames "rhythm".toList = [] ∧
      (cleanStep p).descriptorNames "tonal".toList = [] ∧
      ∀ k, Pool.firstSegment k ≠ "lowlevel".toList → Pool.firstSegment k ≠ "rhythm".toList →
        Pool.firstSegment k ≠ "tonal".toList → (cleanStep p).lookup k = p.lookup k) ∧
    ((∀ q', c.mergeValues q' options = Except.ok q') →
      ∀ q, preparePool c vs extractor descriptorsFilename format options w = Except.ok q →
        q.descriptorNames "lowlevel".toList = [] ∧ q.descriptorNames "rhythm".toList = [] ∧
        q.descriptorNames "tonal".toList = []) := by
  refine ⟨⟨descriptorNames_cleanStep_cleaned p _ (by decide),
    descriptorNames_cleanStep_cleaned p _ (by decide),
    descriptorNames_cleanStep_cleaned p _ (by decide), ?_⟩, ?_⟩
  · intro k h1 h2 h3
    rw [lookup_cleanStep, if_neg]
    simp only [cleanedNamespaces, List.mem_cons, List.mem_singleton, List.not_mem_nil, or_false,
      not_or]
    exact ⟨h1, h2, h3⟩
  · intro hmerge q hq
    have h := firstSegment_of_mem_preparePool c vs extractor _ _ _ w q hmerge hq
    refine ⟨?_, ?_, ?_⟩
    · exact descriptorNames_eq_nil_of_firstSegment q _ (by decide)
        (fun k hk e => h k hk (e ▸ (by decide : "lowlevel".toList ∈ cleanedNamespaces)))
    · exact descriptorNames_eq_nil_of_firstSegment q _ (by decide)
        (fun k hk e => h k hk (e ▸ (by decide : "rhythm".toList ∈ cleanedNamespaces)))
    · exact descriptorNames_eq_nil_of_firstSegment q _ (by decide)
        (fun k hk e => h k hk (e ▸ (by decide : "tonal".toList ∈ cleanedNamespaces)))

/-- C3 on the end-to-end scenario: with a classifier that does nothing and empty options, the
input `lowlevel.a=1, rhythm.b=2, tonal.c=3, metadata.version.lowlevel_extractor=xyz` gives the pool
that holds `metadata.version.lowlevel.lowlevel_extractor=xyz` and the five new version keys, and
nothing under `lowlevel`, `rhythm` or `tonal`. -/
theorem C3_clean_step_witness :
    (∀ q', (demo [] noopExtractor).mergeValues q' [] = Except.ok q') ∧
    preparePool (demo [] noopExtractor) demoVersions noopExtractor "in.json".toList
        "json".toList [] [("in.json".toList, scenarioPool)] =
      Except.ok (setHighlevelVersions demoVersions
        [("metadata.version.lowlevel.lowlevel_extractor".toList, Value.string "xyz".toList)]) ∧
    ((setHighlevelVersions demoVersions
        [("metadata.version.lowlevel.lowlevel_extractor".toList,
          Value.string "xyz".toList)]).descriptorNames "lowlevel".toList = [] ∧
      (setHighlevelVersions demoVersions
        [("metadata.version.lowlevel.lowlevel_extractor".toList,
          Value.string "xyz".toList)]).descriptorNames "rhythm".toList = [] ∧
      (setHighlevelVersions demoVersions
        [("metadata.version.lowlevel.lowlevel_extractor".toList,
          Value.string "xyz".toList)]).descriptorNames "tonal".toList = []) :=
  ⟨fun _ => rfl, rfl,
    (C3_clean_step (demo [] noopExtractor) demoVersions noopExtractor "in.json".toList
      "json".toList [] [("in.json".toList, scenarioPool)] scenarioPool).2 (fun _ => rfl) _ rfl⟩

/-- C4: the batch loop of `main` is compared with `process_single_file` called on the pairs in
turn (`worldAfter`, `outcomes`, `failingPairs`). Whatever calls fail, no exception leaves the
loop; the loop leaves the world that these calls leave; the calls it makes are the pairs, once
and in order, each recorded with what `process_single_file` really throws; the "skipping"
diagnostics are exactly the failing pairs, each named by its input and with its error, so they
are as many as the failing pairs; and if `process_single_file` fails with an Essentia error on a
pair, the events are those of the earlier pairs, then this call and exactly one "skipping"
diagnostic that names its input, then the events of the loop over all later pairs, on each of
which `process_single_file` is still called once and in order. -/
theorem C4_failure_isolation {σ : Type} (c : Collaborators σ) (vs : Versions)
    (extractor : Algorithm) (format : Str) (options : Pool) (pairs : List (Str × Str)) (w : σ) :
    (batchLoop c vs extractor format options pairs w).2.2 = none ∧
    (batchLoop c vs extractor format options pairs w).1 =
      worldAfter c vs extractor format options pairs w ∧
    callResultsOf (batchLoop c vs extractor format options pairs w).2.1 =
      outcomes c vs extractor format options pairs w ∧
    callsOf (batchLoop c vs extractor format options pairs w).2.1 = pairs ∧
    wellPaired (batchLoop c vs extractor format options pairs w).2.1 = true ∧
    diagnosticsOf (batchLoop c vs extractor format options pairs w).2.1 =
      failingPairs c vs extractor format options pairs w ∧
    (diagnosticsOf (batchLoop c vs extractor format options pairs w).2.1).length =
      (failingPairs c vs extractor format options pairs w).length ∧
    ∀ pre inputFilename outputFilename post w' e,
      pairs = pre ++ (inputFilename, outputFilename) :: post →
      process_single_file c vs extractor inputFilename outputFilename format options
          (worldAfter c vs extractor format options pre w) =
        (w', Except.error (Exception.essentia e)) →
      (batchLoop c vs extractor format options pairs w).2.1 =
          (batchLoop c vs extractor format options pre w).2.1 ++
            Event.call inputFilename outputFilename (some (Exception.essentia e)) ::
            Event.skipping inputFilename e ::
            (batchLoop c vs extractor format options post w').2.1 ∧
        callResultsOf (batchLoop c vs extractor format options post w').2.1 =
          outcomes c vs extractor format options post w' ∧
        callsOf (batchLoop c vs extractor format options post w').2.1 = post ∧
        (batchLoop c vs extractor format options pairs w).1 =
          worldAfter c vs extractor format options post w' := by
  obtain ⟨h1, h2, h3, _, _⟩ := batchLoop_isolation c vs extractor format options pairs w
  obtain ⟨h4, h5⟩ := batchLoop_outcomes c vs extractor format options pairs w
  refine ⟨h1, batchLoop_world c vs extractor format options pairs w, h4, h2, h3, h5,
    by rw [h5], ?_⟩
  intro pre i o post w' e hsplit hp
  subst hsplit
  rw [← batchLoop_world] at hp
  have hcons : batchLoop c vs extractor format options ((i, o) :: post)
      (batchLoop c vs extractor format options pre w).1 =
      ((batchLoop c vs extractor format options post w').1,
        Event.call i o (some (Exception.essentia e)) :: Event.skipping i e ::
          (batchLoop c vs extractor format options post w').2.1,
        (batchLoop c vs extractor format options post w').2.2) := by
    simp only [batchLoop, hp]
  rw [batchLoop_append, hcons]
  refine ⟨rfl, (batchLoop_outcomes c vs extractor format options post w').1,
    (batchLoop_isolation c vs extractor format options post w').2.1, ?_⟩
  exact batchLoop_world c vs extractor format options post w'

/-- C4 on `demoPairs`: the first input cannot be read, the second can. The first call fails and is
reported once, the second call is still made and writes its output file. -/
theorem C4_failure_isolation_witness :
    demoPairs = [] ++ ("missing.json".toList, "out1.json".toList) ::
      [("in.json".toList, "out2.json".toList)] ∧
    process_single_file (demo demoOptions noopExtractor) demoVersions noopExtractor
        "missing.json".toList "out1.json".toList "json".toList demoOptions
        (worldAfter (demo demoOptions noopExtractor) demoVersions noopExtractor "json".toList
          demoOptions [] [("in.json".toList, versionPool)]) =
      ([("in.json".toList, versionPool)], Except.error (Exception.essentia
        (EssentiaException.other "cannot read missing.json".toList))) ∧
    (batchLoop (demo demoOptions noopExtractor) demoVersions noopExtractor "json".toList
        demoOptions demoPairs [("in.json".toList, versionPool)]).2.1 =
      [Event.call "missing.json".toList "out1.json".toList (some (Exception.essentia
          (EssentiaException.other "cannot read missing.json".toList))),
        Event.skipping "missing.json".toList
          (EssentiaException.other "cannot read missing.json".toList),
        Event.call "in.json".toList "out2.json".toList none] ∧
    ((batchLoop (demo demoOptions noopExtractor) demoVersions noopExtractor "json".toList
        demoOptions demoPairs [("in.json".toList, versionPool)]).2.1 =
      (batchLoop (demo demoOptions noopExtractor) demoVersions noopExtractor "json".toList
          demoOptions [] [("in.json".toList, versionPool)]).2.1 ++
        Event.call "missing.json".toList "out1.json".toList (some (Exception.essentia
          (EssentiaException.other "cannot read missing.json".toList))) ::
        Event.skipping "missing.json".toList
          (EssentiaException.other "cannot read missing.json".toList) ::
        (batchLoop (demo demoOptions noopExtractor) demoVersions noopExtractor "json".toList
          demoOptions [("in.json".toList, "out2.json".toList)]
          [("in.json".toList, versionPool)]).2.1 ∧
      callResultsOf (batchLoop (demo demoOptions noopExtractor) demoVersions noopExtractor
          "json".toList demoOptions [("in.json".toList, "out2.json".toList)]
          [("in.json".toList, versionPool)]).2.1 =
        outcomes (demo demoOptions noopExtractor) demoVersions noopExtractor "json".toList
          demoOptions [("in.json".toList, "out2.json".toList)]
          [("in.json".toList, versionPool)] ∧
      callsOf (batchLoop (demo demoOptions noopExtractor) demoVersions noopExtractor
          "json".toList demoOptions [("in.json".toList, "out2.json".toList)]
          [("in.json".toList, versionPool)]).2.1 = [("in.json".toList, "out2.json".toList)] ∧
      (batchLoop (demo demoOptions noopExtractor) demoVersions noopExtractor "json".toList
          demoOptions demoPairs [("in.json".toList, versionPool)]).1 =
        worldAfter (demo demoOptions noopExtractor) demoVersions noopExtractor "json".toList
          demoOptions [("in.json".toList, "out2.json".toList)]
          [("in.json".toList, versionPool)]) :=
  ⟨rfl, rfl, rfl,
    (C4_failure_isolation (demo demoOptions noopExtractor) demoVersions noopExtractor
      "json".toList demoOptions demoPairs [("in.json".toList, versionPool)]).2.2.2.2.2.2.2
      [] "missing.json".toList "out1.json".toList [("in.json".toList, "out2.json".toList)]
      [("in.json".toList, versionPool)]
      (EssentiaException.other "cannot read missing.json".toList) rfl rfl⟩

/-- C5, failing run: with options that hold a number under `highlevel.inputFormat` the start-up
succeeds, the lookup of line 137 throws outside any `try` block, and the exception leaves `main`:
the run ends with exit status neither `0` nor `1`, and no file is processed. -/
theorem C5_uncaught_format_error :
    (∃ r, startup (demo numericFormatOptions noopExtractor)
        (parseArguments ["prog".toList, "in.json".toList, "out.json".toList,
          "profile.yaml".toList]).1 [("in.json".toList, versionPool)] = Except.ok r) ∧
    (main (demo numericFormatOptions noopExtractor) demoVersions
        ["prog".toList, "in.json".toList, "out.json".toList, "profile.yaml".toList]
        [("in.json".toList, versionPool)]).outcome =
      Outcome.terminate
        (Exception.essentia (EssentiaException.typeMismatch "highlevel.inputFormat".toList)) ∧
    (main (demo numericFormatOptions noopExtractor) demoVersions
        ["prog".toList, "in.json".toList, "out.json".toList, "profile.yaml".toList]
        [("in.json".toList, versionPool)]).outcome ≠ Outcome.exit 0 ∧
    (main (demo numericFormatOptions noopExtractor) demoVersions
        ["prog".toList, "in.json".toList, "out.json".toList, "profile.yaml".toList]
        [("in.json".toList, versionPool)]).outcome ≠ Outcome.exit 1 ∧
    (main (demo numericFormatOptions noopExtractor) demoVersions
        ["prog".toList, "in.json".toList, "out.json".toList, "profile.yaml".toList]
        [("in.json".toList, versionPool)]).trace = [] := by
  have h : main (demo numericFormatOptions noopExtractor) demoVersions
      ["prog".toList, "in.json".toList, "out.json".toList, "profile.yaml".toList]
      [("in.json".toList, versionPool)] =
      ⟨Outcome.terminate
        (Exception.essentia (EssentiaException.typeMismatch "highlevel.inputFormat".toList)),
        [("in.json".toList, versionPool)], []⟩ := by
    simp [main, parseArguments, collectPairs]
    rfl
  refine ⟨⟨_, rfl⟩, ?_, ?_, ?_, ?_⟩
  · rw [h]
  · rw [h]; simp
  · rw [h]; simp
  · rw [h]

/-- C6: for `argc >= 3` the argument parsing of `main` gives `floor((argc-1)/2)` input names and
as many output names; pair `j` is `(argv[2j+1], argv[2j+2])` with both indices below `argc`; the
profile filename is `argv[argc-1]` when `argc` is even and empty when `argc` is odd; and when
there is a profile, its index `argc-1` is not the index of an input or output name. -/
theorem C6_argument_pairing (argv : List Str) (h : 3 ≤ argv.length) :
    (parseArguments argv).2.1.length = (argv.length - 1) / 2 ∧
    (parseArguments argv).2.2.length = (argv.length - 1) / 2 ∧
    (∀ j, j < (argv.length - 1) / 2 →
      2 * j + 2 < argv.length ∧
      (parseArguments argv).2.1[j]? = argv[2 * j + 1]? ∧
      (parseArguments argv).2.2[j]? = argv[2 * j + 2]?) ∧
    (argv.length % 2 = 0 →
      some (parseArguments argv).1 = argv[argv.length - 1]? ∧
      ∀ j, j < (argv.length - 1) / 2 → 2 * j + 1 ≠ argv.length - 1 ∧
        2 * j + 2 ≠ argv.length - 1) ∧
    (argv.length % 2 = 1 → (parseArguments argv).1 = []) := by
  have hn : argv.length - 1 + argv.length % 2 = 1 + 2 * ((argv.length - 1) / 2) := by omega
  have hp : (parseArguments argv).2 =
      ((List.range ((argv.length - 1) / 2)).map (fun j => argv.getD (1 + 2 * j) []),
        (List.range ((argv.length - 1) / 2)).map (fun j => argv.getD (1 + 2 * j + 1) [])) := by
    simp only [parseArguments]
    rw [hn, collectPairs_eq]
    simp
  refine ⟨by rw [hp]; simp, by rw [hp]; simp, ?_, ?_, ?_⟩
  · intro j hj
    have hj2 : 2 * j + 2 < argv.length := by omega
    refine ⟨hj2, ?_, ?_⟩
    · rw [hp]
      simp only [List.getElem?_map, List.getElem?_range hj, Option.map_some']
      rw [List.getD_eq_getElem?_getD, List.getElem?_eq_getElem (by omega : 1 + 2 * j < argv.length),
        List.getElem?_eq_getElem (by omega : 2 * j + 1 < argv.length)]
      simp only [Option.getD_some]
      congr 2
      omega
    · rw [hp]
      simp only [List.getElem?_map, List.getElem?_range hj, Option.map_some']
      rw [List.getD_eq_getElem?_getD,
        List.getElem?_eq_getElem (by omega : 1 + 2 * j + 1 < argv.length),
        List.getElem?_eq_getElem (by omega : 2 * j + 2 < argv.length)]
      simp only [Option.getD_some]
      congr 2
      omega
  · intro he
    refine ⟨?_, ?_⟩
    · simp only [parseArguments, he, if_true]
      rw [List.getD_eq_getElem?_getD,
        List.getElem?_eq_getElem (by omega : argv.length - 1 < argv.length)]
      rfl
    · intro j hj
      omega
  · intro ho
    have : ¬ argv.length % 2 = 0 := by omega
    simp only [parseArguments, this, if_false]

/-- C6 on the command line `prog a b c d profile` (`argc = 6`): two pairs, `(a, b)` and `(c, d)`,
and the profile `profile`. -/
theorem C6_argument_pairing_witness :
    3 ≤ demoArgv.length ∧
    parseArguments demoArgv =
      ("profile".toList, ["a".toList, "c".toList], ["b".toList, "d".toList]) ∧
    ((parseArguments demoArgv).2.1.length = (demoArgv.length - 1) / 2 ∧
    (parseArguments demoArgv).2.2.length = (demoArgv.length - 1) / 2 ∧
    (∀ j, j < (demoArgv.length - 1) / 2 →
      2 * j + 2 < demoArgv.length ∧
      (parseArguments demoArgv).2.1[j]? = demoArgv[2 * j + 1]? ∧
      (parseArguments demoArgv).2.2[j]? = demoArgv[2 * j + 2]?) ∧
    (demoArgv.length % 2 = 0 →
      some (parseArguments demoArgv).1 = demoArgv[demoArgv.length - 1]? ∧
      ∀ j, j < (demoArgv.length - 1) / 2 → 2 * j + 1 ≠ demoArgv.length - 1 ∧
        2 * j + 2 ≠ demoArgv.length - 1) ∧
    (demoArgv.length % 2 = 1 → (parseArguments demoArgv).1 = [])) :=
  ⟨by decide, by simp [parseArguments, collectPairs, demoArgv],
    C6_argument_pairing demoArgv (by decide)⟩

/-- C7: when `process_single_file` succeeds and the merge adds no key, the pool handed to the
serializer holds the five keys `metadata.version.highlevel.essentia`, `.essentia_git_sha`,
`.extractor`, `.gaia` and `.gaia_git_sha` with the values of the five version constants, whatever
the input held; and a key `metadata.version.lowlevel.highlevel.X` for one of the five names `X` is
in that pool only if the classified input pool had the key `metadata.version.highlevel.X`: the
values set by this run are not relocated. -/
theorem C7_highlevel_versions {σ : Type} (c : Collaborators σ) (vs : Versions)
    (extractor : Algorithm) (descriptorsFilename outputFilename format : Str) (options : Pool)
    (w w' : σ) (hmerge : ∀ q', c.mergeValues q' options = Except.ok q')
    (h : process_single_file c vs extractor descriptorsFilename outputFilename format options w =
      (w', Except.ok ())) :
    ∃ p0 p1 q, c.yamlInput w descriptorsFilename format = Except.ok p0 ∧
      extractor p0 = Except.ok p1 ∧
      preparePool c vs extractor descriptorsFilename format options w = Except.ok q ∧
      c.outputToFile w q outputFilename options = (w', Except.ok ()) ∧
      q.lookup (mvDot ++ "highlevel.essentia".toList) = some (Value.string vs.essentia_version) ∧
      q.lookup (mvDot ++ "highlevel.essentia_git_sha".toList) =
        some (Value.string vs.essentia_version_git_sha) ∧
      q.lookup (mvDot ++ "highlevel.extractor".toList) =
        some (Value.string vs.MUSIC_EXTRACTOR_VERSION) ∧
      q.lookup (mvDot ++ "highlevel.gaia".toList) = some (Value.string vs.gaia2_version) ∧
      q.lookup (mvDot ++ "highlevel.gaia_git_sha".toList) =
        some (Value.string vs.gaia2_version_git_sha) ∧
      ∀ s ∈ highlevelSuffixes, mvLow ++ s ∈ q.keys → mvDot ++ s ∈ p1.keys := by
  unfold process_single_file at h
  cases hq : preparePool c vs extractor descriptorsFilename format options w with
  | error e => rw [hq] at h; simp at h
  | ok q =>
    rw [hq] at h
    simp only at h
    rcases ho : c.outputToFile w q outputFilename options with ⟨w1, r⟩
    rw [ho] at h
    cases r with
    | error e1 => simp at h
    | ok u =>
      simp only [Prod.mk.injEq, and_true] at h
      subst h
      obtain ⟨p0, p1, p3, h0, h1, h3, h4⟩ := (preparePool_ok_iff c vs extractor _ _ _ w q).1 hq
      rw [hmerge] at h4
      injection h4 with h4
      subst h4
      refine ⟨p0, p1, _, h0, h1, rfl, ho, ?_, ?_, ?_, ?_, ?_, ?_⟩
      · rw [lookup_setHighlevelVersions]; rfl
      · rw [lookup_setHighlevelVersions]; rfl
      · rw [lookup_setHighlevelVersions]; rfl
      · rw [lookup_setHighlevelVersions]; rfl
      · rw [lookup_setHighlevelVersions]; rfl
      · intro s hs hk
        have hk3 : mvLow ++ s ∈ p3.keys := by
          rcases (mem_keys_setHighlevelVersions vs p3 _).1 hk with ⟨t, ht, e⟩ | hk3
          · exfalso
            simp only [highlevelSuffixes, List.mem_cons, List.mem_singleton, List.not_mem_nil,
              or_false] at hs ht
            rcases hs with rfl | rfl | rfl | rfl | rfl <;>
              rcases ht with rfl | rfl | rfl | rfl | rfl <;> revert e <;> decide
          · exact hk3
        have hu : Pool.under metadataVersion (mvLow ++ s) = true := by
          rw [← relocated_mvDot]; exact under_relocated _
        rcases rewriteLoop_keys_sub _ _ (cleanStep p1) p3
            (fun a ha => under_of_mem_descriptorNames _ _ a ha) h3 hk3 with ⟨h5, h6⟩ | h5
        · exact absurd ((mem_descriptorNames _ _ _).2 ⟨h5, hu⟩) h6
        · obtain ⟨a, ha, ha2⟩ := List.mem_map.1 h5
          obtain ⟨t, rfl⟩ := (under_mv_iff a).1 (under_of_mem_descriptorNames _ _ a ha)
          rw [relocated_mvDot] at ha2
          rw [← List.append_cancel_left ha2]
          exact mem_keys_of_mem_cleanStep p1 _ ((mem_descriptorNames _ _ _).1 ha).1

/-- C7 on `rerunPool`, an input that already has `metadata.version.highlevel.essentia`: the old
value moves to `metadata.version.lowlevel.highlevel.essentia`, the five keys hold the constants. -/
theorem C7_highlevel_versions_witness :
    (∀ q', (demo demoOptions noopExtractor).mergeValues q' demoOptions = Except.ok q') ∧
    process_single_file (demo demoOptions noopExtractor) demoVersions noopExtractor
        "in.json".toList "out.json".toList "json".toList demoOptions
        [("in.json".toList, rerunPool)] =
      ([("out.json".toList, setHighlevelVersions demoVersions
          [("metadata.version.lowlevel.essentia".toList, Value.string "2.1-beta5".toList),
           ("metadata.version.lowlevel.highlevel.essentia".toList,
             Value.string "2.1-beta4".toList)]),
        ("in.json".toList, rerunPool)], Except.ok ()) ∧
    ∃ p0 p1 q, (demo demoOptions noopExtractor).yamlInput [("in.json".toList, rerunPool)]
        "in.json".toList "json".toList = Except.ok p0 ∧
      noopExtractor p0 = Except.ok p1 ∧
      preparePool (demo demoOptions noopExtractor) demoVersions noopExtractor "in.json".toList
        "json".toList demoOptions [("in.json".toList, rerunPool)] = Except.ok q ∧
      (demo demoOptions noopExtractor).outputToFile [("in.json".toList, rerunPool)] q
          "out.json".toList demoOptions =
        ([("out.json".toList, setHighlevelVersions demoVersions
            [("metadata.version.lowlevel.essentia".toList, Value.string "2.1-beta5".toList),
             ("metadata.version.lowlevel.highlevel.essentia".toList,
               Value.string "2.1-beta4".toList)]),
          ("in.json".toList, rerunPool)], Except.ok ()) ∧
      q.lookup (mvDot ++ "highlevel.essentia".toList) =
        some (Value.string demoVersions.essentia_version) ∧
      q.lookup (mvDot ++ "highlevel.essentia_git_sha".toList) =
        some (Value.string demoVersions.essentia_version_git_sha) ∧
      q.lookup (mvDot ++ "highlevel.extractor".toList) =
        some (Value.string demoVersions.MUSIC_EXTRACTOR_VERSION) ∧
      q.lookup (mvDot ++ "highlevel.gaia".toList) =
        some (Value.string demoVersions.gaia2_version) ∧
      q.lookup (mvDot ++ "highlevel.gaia_git_sha".toList) =
        some (Value.string demoVersions.gaia2_version_git_sha) ∧
      ∀ s ∈ highlevelSuffixes, mvLow ++ s ∈ q.keys → mvDot ++ s ∈ p1.keys :=
  ⟨fun _ => rfl, rfl,
    C7_highlevel_versions (demo demoOptions noopExtractor) demoVersions noopExtractor
      "in.json".toList "out.json".toList "json".toList demoOptions
      [("in.json".toList, rerunPool)] _ (fun _ => rfl) rfl⟩

/-- C8: for every non-empty input sequence `Mean::compute` writes to its output port the sum of
the elements divided by their number, and it fails only when the input sequence is empty. -/
theorem C8_mean_compute (m : Mean) :
    (m._array ≠ [] →
      Mean.compute m =
        Except.ok { m with _mean := m._array.sum / (m._array.length : Rat) }) ∧
    (∀ e, Mean.compute m = Except.error e → m._array = []) := by
  constructor
  · intro h
    have h1 : m._array.isEmpty = false := by
      cases hm : m._array with
      | nil => exact absurd hm h
      | cons a l => rfl
    simp only [Mean.compute, mean, h1]
    rfl
  · intro e he
    cases hm : m._array with
    | nil => rfl
    | cons a l =>
      simp only [Mean.compute, mean, hm, List.isEmpty_cons] at he
      cases he

/-- C8 on the input `[1, 2, 3, 4]`: the output is `2.5`. -/
theorem C8_mean_compute_witness :
    ([1, 2, 3, 4] : List Rat) ≠ [] ∧
    Mean.compute ⟨[1, 2, 3, 4], 0⟩ = Except.ok ⟨[1, 2, 3, 4], 2.5⟩ := by
  refine ⟨by simp, ?_⟩
  rw [(C8_mean_compute ⟨[1, 2, 3, 4], 0⟩).1 (by simp)]
  norm_num

/-- C9, as stated, fails: on the empty pool the rewrite step sets the five keys under
`metadata.version.highlevel`; applied to this result it moves them under
`metadata.version.lowlevel.highlevel` and sets them again, which gives another pool. -/
theorem C9_counterexample :
    ∃ p1 p2, versionRewriteStep demoVersions [] = Except.ok p1 ∧
      versionRewriteStep demoVersions p1 = Except.ok p2 ∧ p2 ≠ p1 ∧
      p1.lookup (mvLow ++ "highlevel.essentia".toList) = none ∧
      p2.lookup (mvLow ++ "highlevel.essentia".toList) =
        some (Value.string demoVersions.essentia_version) :=
  ⟨_, _, rfl, rfl, by decide, by decide, by decide⟩

/-- C9, amended: the clean step applied twice equals the clean step applied once, for every pool.
The version-rewrite step (relocation loop, then the five `set` calls) is not idempotent: for every
pool with unique keys on which it succeeds, a second application to its own result succeeds too
and gives a different pool. -/
theorem C9_clean_idempotent_rewrite_not (vs : Versions) (p : Pool) :
    cleanStep (cleanStep p) = cleanStep p ∧
      (p.WF → ∀ p1, versionRewriteStep vs p = Except.ok p1 →
        ∃ p2, versionRewriteStep vs p1 = Except.ok p2 ∧ p2 ≠ p1) :=
  ⟨cleanStep_idem p, fun hwf p1 h => versionRewriteStep_twice vs p p1 hwf h⟩

/-- C9, amended, at `versionPool`: the clean step is idempotent there, and the rewrite step
succeeds twice with two different results. -/
theorem C9_clean_idempotent_rewrite_not_witness :
    cleanStep (cleanStep versionPool) = cleanStep versionPool ∧ versionPool.WF ∧
      ∃ p1, versionRewriteStep demoVersions versionPool = Except.ok p1 ∧
        ∃ p2, versionRewriteStep demoVersions p1 = Except.ok p2 ∧ p2 ≠ p1 :=
  ⟨(C9_clean_idempotent_rewrite_not demoVersions versionPool).1, by decide, _, rfl,
    (C9_clean_idempotent_rewrite_not demoVersions versionPool).2 (by decide) _ rfl⟩

/-- C10, as stated, fails: in `typeCollisionPool` the key `metadata.version.lowlevel.a` holds a
number, yet `process_single_file` succeeds and writes the output file, and `main` reports no
skipped file: the loop first overwrites that key with the string of `metadata.version.a`. -/
theorem C10_counterexample :
    typeCollisionPool.WF ∧
    mvLow ++ "a".toList ∈ typeCollisionPool.descriptorNames metadataVersion ∧
    typeCollisionPool.lookup (mvLow ++ "a".toList) = some (Value.real 5) ∧
    process_single_file (demo demoOptions noopExtractor) demoVersions noopExtractor
        "in.json".toList "out.json".toList "json".toList demoOptions
        [("in.json".toList, typeCollisionPool)] =
      ([("out.json".toList, setHighlevelVersions demoVersions
          [("metadata.version.lowlevel.lowlevel.a".toList, Value.string "1".toList)]),
        ("in.json".toList, typeCollisionPool)], Except.ok ()) ∧
    (main (demo demoOptions noopExtractor) demoVersions
        ["prog".toList, "in.json".toList, "out.json".toList]
        [("in.json".toList, typeCollisionPool)]).trace =
      [Event.call "in.json".toList "out.json".toList none] := by
  refine ⟨by decide, by decide, by decide, rfl, ?_⟩
  simp [main, parseArguments, collectPairs]
  rfl

/-- C10, amended: let a loaded and classified pool with unique keys have a key `K` under
`metadata.version` that holds a value which is not a string, and let `K` not be the new name of a
key enumerated before it. Then the rewrite loop fails with the type-mismatch error of the pool,
`process_single_file` fails with that error and leaves the files as they are (no output file is
written), and the batch loop of `main` reports the input as skipped and goes on. -/
theorem C10_type_mismatch {σ : Type} (c : Collaborators σ) (vs : Versions)
    (extractor : Algorithm) (inputFilename outputFilename format : Str) (options : Pool) (w : σ)
    (p0 p1 : Pool) (K : Str) (val : Value) (pre post : List Str)
    (hload : c.yamlInput w inputFilename format = Except.ok p0)
    (hcls : extractor p0 = Except.ok p1) (hwf : p1.WF)
    (hsplit : p1.descriptorNames metadataVersion = pre ++ K :: post)
    (hval : p1.lookup K = some val) (hns : val.isString = false)
    (hpre : ∀ k' ∈ pre, relocated k' ≠ K) :
    ∃ k, versionRewriteLoop (cleanStep p1) =
        Except.error (Exception.essentia (EssentiaException.typeMismatch k)) ∧
      process_single_file c vs extractor inputFilename outputFilename format options w =
        (w, Except.error (Exception.essentia (EssentiaException.typeMismatch k))) ∧
      ∀ rest, batchLoop c vs extractor format options ((inputFilename, outputFilename) :: rest) w =
        ((batchLoop c vs extractor format options rest w).1,
          Event.call inputFilename outputFilename
              (some (Exception.essentia (EssentiaException.typeMismatch k))) ::
            Event.skipping inputFilename (EssentiaException.typeMismatch k) ::
            (batchLoop c vs extractor format options rest w).2.1,
          (batchLoop c vs extractor format options rest w).2.2) := by
  have hks : (cleanStep p1).descriptorNames metadataVersion = pre ++ K :: post := by
    rw [descriptorNames_cleanStep_mv, hsplit]
  have hu : ∀ k ∈ pre ++ K :: post, Pool.under metadataVersion k = true := by
    intro k hk
    rw [← hks] at hk
    exact under_of_mem_descriptorNames _ _ k hk
  have hn : (pre ++ K :: post).Nodup := by
    rw [← hks]
    exact nodup_descriptorNames _ _ (WF_cleanStep p1 hwf)
  have hmem : ∀ k ∈ pre ++ K :: post, k ∈ (cleanStep p1).keys := by
    intro k hk
    rw [← hks] at hk
    exact ((mem_descriptorNames _ _ _).1 hk).1
  have huK := hu K (List.mem_append_right _ (List.mem_cons_self _ _))
  have hval' : (cleanStep p1).lookup K = some val := by
    rw [lookup_cleanStep, if_neg (not_cleaned_of_under_mv K huK), hval]
  obtain ⟨k, hk⟩ := rewriteLoop_typeMismatch (cleanStep p1) K val pre post hu hn hmem hval' hns hpre
  have hloop : versionRewriteLoop (cleanStep p1) =
      Except.error (Exception.essentia (EssentiaException.typeMismatch k)) := by
    unfold versionRewriteLoop
    rw [hks, hk]
  have hprep : preparePool c vs extractor inputFilename format options w =
      Except.error (Exception.essentia (EssentiaException.typeMismatch k)) := by
    unfold preparePool
    simp [hload, hcls, hloop, liftE, bind, Except.bind]
  have hpsf : process_single_file c vs extractor inputFilename outputFilename format options w =
      (w, Except.error (Exception.essentia (EssentiaException.typeMismatch k))) := by
    unfold process_single_file
    rw [hprep]
  refine ⟨k, hloop, hpsf, ?_⟩
  intro rest
  simp only [batchLoop, hpsf]

/-- C10, amended, at `numberVersionPool`, whose key `metadata.version.build` holds a number: the
file is skipped and nothing is written. -/
theorem C10_type_mismatch_witness :
    numberVersionPool.WF ∧
    numberVersionPool.lookup "metadata.version.build".toList = some (Value.real 5) ∧
    ∃ k, versionRewriteLoop (cleanStep numberVersionPool) =
        Except.error (Exception.essentia (EssentiaException.typeMismatch k)) ∧
      process_single_file (demo demoOptions noopExtractor) demoVersions noopExtractor
          "in.json".toList "out.json".toList "json".toList demoOptions
          [("in.json".toList, numberVersionPool)] =
        ([("in.json".toList, numberVersionPool)],
          Except.error (Exception.essentia (EssentiaException.typeMismatch k))) ∧
      ∀ rest, batchLoop (demo demoOptions noopExtractor) demoVersions noopExtractor
          "json".toList demoOptions (("in.json".toList, "out.json".toList) :: rest)
          [("in.json".toList, numberVersionPool)] =
        ((batchLoop (demo demoOptions noopExtractor) demoVersions noopExtractor "json".toList
            demoOptions rest [("in.json".toList, numberVersionPool)]).1,
          Event.call "in.json".toList "out.json".toList
              (some (Exception.essentia (EssentiaException.typeMismatch k))) ::
            Event.skipping "in.json".toList (EssentiaException.typeMismatch k) ::
            (batchLoop (demo demoOptions noopExtractor) demoVersions noopExtractor "json".toList
              demoOptions rest [("in.json".toList, numberVersionPool)]).2.1,
          (batchLoop (demo demoOptions noopExtractor) demoVersions noopExtractor "json".toList
            demoOptions rest [("in.json".toList, numberVersionPool)]).2.2) :=
  ⟨by decide, by decide,
    C10_type_mismatch (demo demoOptions noopExtractor) demoVersions noopExtractor
      "in.json".toList "out.json".toList "json".toList demoOptions
      [("in.json".toList, numberVersionPool)] numberVersionPool numberVersionPool
      "metadata.version.build".toList (Value.real 5) ["metadata.version.essentia".toList] []
      rfl rfl (by decide) (by decide) (by decide) rfl (by decide)⟩

end Essentia
